import Mathlib

/-!
# Markov-chain text model (`main.go`): shallow embedding and verified properties

Go values are embedded as follows.

* A Go `string` is an arbitrary byte sequence: `GoString` is a list of bytes, each byte a
  natural number (below 256 in a string that Go can hold).  Concrete inputs are written
  with `ascii`.
* A slice `[]string` is a list; a `nil` slice and an empty slice are both `[]` (the program
  only applies `len`, `append`, indexing and `range` to them, which do not tell them
  apart; `json.Marshal` does, see `encSlice`).
* A `map[string][]string` is an association list with first-match lookup; the `nil` map
  is `none` (reads succeed on it, an assignment panics).
* A run-time panic is the `none` of an `Option` result.
* The random source is a sequence `rnd : Nat → Nat` of raw draws; `rand.Intn(n)` maps a
  raw draw into `[0, n)`.
* Loops that need not terminate (`Generate`) take a bound on the number of iterations;
  loops of the libraries that do terminate take a bound that is never reached.
* Of the standard library, the parts the program calls are embedded from their documented
  behaviour: `strings.Split` and `strings.Join`, `fmt.Fscan` into a `*string`, package
  `unicode/utf8`, `json.Marshal` / `json.Unmarshal` at the type `*Chain`, the line
  scanner of `bufio`, and of the third-party package `bolt` the bucket operations that
  `Save` and `GetChain` call.
-/

namespace Markov

/-! ## Strings -/

/-- Go `string`: a sequence of bytes, each byte a natural number (below 256 in a
well-formed string). -/
abbrev GoString := List Nat

/-- The space byte `' '`. -/
def SP : Nat := 32

/-- Bytes of an ASCII literal (used to write concrete inputs readably). -/
def ascii (s : String) : GoString := s.data.map Char.toNat

/-- `strings.Join(a, sep)`. -/
def Join : List GoString → GoString → GoString
  | [], _ => []
  | [a], _ => a
  | a :: b :: rest, sep => a ++ sep ++ Join (b :: rest) sep

/-- `strings.Split(s, sep)` for a one-byte separator (the program only calls it with `" "`):
the pieces of `s` between consecutive occurrences of `sep`; always at least one piece. -/
def Split : GoString → Nat → List GoString
  | [], _ => [[]]
  | b :: rest, sep =>
    if b = sep then [] :: Split rest sep
    else
      match Split rest sep with
      | [] => [[b]]
      | t :: ts => (b :: t) :: ts

/-! ## Prefix -/

/-- `const PrefixLen = 2`. -/
def PrefixLen : Nat := 2

/-- `type Prefix []string`. -/
abbrev Prefix := List GoString

/-- `make(Prefix, n)`: `n` empty strings. -/
def makePrefix (n : Nat) : Prefix := List.replicate n []

/-- `func (p Prefix) String() string`. -/
def Prefix.String (p : Prefix) : GoString := Join p [SP]

/-- The built-in `copy(dst, src)`: the first `min(len(dst), len(src))` elements of `dst`
are overwritten by those of `src`. -/
def copy {α : Type} (dst src : List α) : List α :=
  src.take dst.length ++ dst.drop src.length

/-- `func (p Prefix) Shift(word string)`: `copy(p, p[1:]); p[len(p)-1] = word`.
On an empty Prefix the slice expression `p[1:]` panics (`none`). -/
def Prefix.Shift (p : Prefix) (word : GoString) : Option Prefix :=
  match p with
  | [] => none
  | _ :: tl => some ((copy p tl).set (p.length - 1) word)

/-- Successive `Shift` calls on the same Prefix. -/
def shiftAll : Prefix → List GoString → Option Prefix
  | p, [] => some p
  | p, w :: ws =>
    match Prefix.Shift p w with
    | none => none
    | some q => shiftAll q ws

/-! ## Chain -/

/-- Contents of a non-nil `map[string][]string`. -/
abbrev Table := List (GoString × List GoString)

/-- Map read `m[key]`: the stored slice, or the zero value when the key is absent. -/
def Table.get : Table → GoString → List GoString
  | [], _ => []
  | (k, v) :: rest, key => if k = key then v else Table.get rest key

/-- Keys present in the map. -/
def Table.keys (t : Table) : List GoString := t.map Prod.fst

/-- Map write `m[key] = v`: replaces the entry of `key`, or adds one. -/
def Table.set : Table → GoString → List GoString → Table
  | [], key, v => [(key, v)]
  | (k, old) :: rest, key, v =>
    if k = key then (k, v) :: rest else (k, old) :: Table.set rest key v

set_option linter.dupNamespace false in
/-- `type Chain struct { Nick string; Chain map[string][]string }`;
the map is `none` when it is the `nil` map. -/
structure Chain where
  Nick : GoString
  Chain : Option Table
deriving DecidableEq

/-- `c.Chain[key]` as an expression: reading the `nil` map gives the zero value. -/
def Chain.read (c : Markov.Chain) (key : GoString) : List GoString :=
  match c.Chain with
  | none => []
  | some t => t.get key

/-- Whether `key` is present in `c.Chain`. -/
def Chain.hasKey (c : Markov.Chain) (key : GoString) : Prop :=
  match c.Chain with
  | none => False
  | some t => key ∈ t.keys

/-- `func NewChain(nick string) *Chain`. -/
def NewChain (nick : GoString) : Chain := ⟨nick, some []⟩

/-- Body of the ingestion loops:
`key := p.String(); c.Chain[key] = append(c.Chain[key], s); p.Shift(s)`.
The assignment panics on the `nil` map. -/
def observe (m : Option Table) (p : Prefix) (s : GoString) : Option (Option Table × Prefix) :=
  match m with
  | none => none
  | some t =>
    let key := Prefix.String p
    let t1 := t.set key (t.get key ++ [s])
    match Prefix.Shift p s with
    | none => none
    | some q => some (some t1, q)

/-- The `for _, v := range ...` loop of `BuildFromString`. -/
def observeAll : Option Table → Prefix → List GoString → Option (Option Table × Prefix)
  | m, p, [] => some (m, p)
  | m, p, v :: vs =>
    match observe m p v with
    | none => none
    | some (m1, q) => observeAll m1 q vs

/-- `func (c *Chain) BuildFromString(s string)`; the result is the Chain after the call,
`none` when the call panics. -/
def Chain.BuildFromString (c : Markov.Chain) (s : GoString) : Option Markov.Chain :=
  match observeAll c.Chain (makePrefix PrefixLen) (Split s SP) with
  | none => none
  | some (m, _) => some ⟨c.Nick, m⟩

/-! ## UTF-8 (package `unicode/utf8`), used by `fmt.Fscan` and `encoding/json` -/

/-- `utf8.RuneError`, the replacement character U+FFFD. -/
def RuneError : Nat := 0xFFFD

/-- `utf8.EncodeRune`: the UTF-8 bytes of a rune; runes out of range and surrogate halves
are encoded as `RuneError`. -/
def EncodeRune (r : Nat) : GoString :=
  if r ≤ 0x7F then [r]
  else if r ≤ 0x7FF then [0xC0 + r / 64, 0x80 + r % 64]
  else if 0x10FFFF < r ∨ (0xD800 ≤ r ∧ r ≤ 0xDFFF) then [0xEF, 0xBF, 0xBD]
  else if r ≤ 0xFFFF then [0xE0 + r / 4096, 0x80 + r / 64 % 64, 0x80 + r % 64]
  else [0xF0 + r / 262144, 0x80 + r / 4096 % 64, 0x80 + r / 64 % 64, 0x80 + r % 64]

/-- The table `first` of package `utf8` for a leading byte `≥ 0x80`: the length of the
sequence and the accepted range of its second byte; `none` for an invalid leading byte. -/
def firstByte (p0 : Nat) : Option (Nat × Nat × Nat) :=
  if p0 < 0xC2 then none
  else if p0 ≤ 0xDF then some (2, 0x80, 0xBF)
  else if p0 = 0xE0 then some (3, 0xA0, 0xBF)
  else if p0 ≤ 0xEC then some (3, 0x80, 0xBF)
  else if p0 = 0xED then some (3, 0x80, 0x9F)
  else if p0 ≤ 0xEF then some (3, 0x80, 0xBF)
  else if p0 = 0xF0 then some (4, 0x90, 0xBF)
  else if p0 ≤ 0xF3 then some (4, 0x80, 0xBF)
  else if p0 = 0xF4 then some (4, 0x80, 0x8F)
  else none

/-- `utf8.DecodeRune`: the first rune of `p` and its width in bytes; an invalid or
truncated sequence gives `(RuneError, 1)`, the empty input `(RuneError, 0)`. -/
def DecodeRune (p : GoString) : Nat × Nat :=
  match p with
  | [] => (RuneError, 0)
  | p0 :: rest =>
    if p0 < 0x80 then (p0, 1)
    else
      match firstByte p0 with
      | none => (RuneError, 1)
      | some (sz, lo, hi) =>
        if p.length < sz then (RuneError, 1)
        else
          let b1 := rest.getD 0 0
          if b1 < lo ∨ hi < b1 then (RuneError, 1)
          else if sz ≤ 2 then (p0 % 32 * 64 + b1 % 64, 2)
          else
            let b2 := rest.getD 1 0
            if b2 < 0x80 ∨ 0xBF < b2 then (RuneError, 1)
            else if sz ≤ 3 then (p0 % 16 * 4096 + b1 % 64 * 64 + b2 % 64, 3)
            else
              let b3 := rest.getD 2 0
              if b3 < 0x80 ∨ 0xBF < b3 then (RuneError, 1)
              else (p0 % 8 * 262144 + b1 % 64 * 4096 + b2 % 64 * 64 + b3 % 64, 4)

/-- The runes delivered by successive `ReadRune` calls on a reader holding `s`
(`fuel` bounds the number of runes; `len(s)` is enough). -/
def runesN : Nat → GoString → List Nat
  | 0, _ => []
  | _ + 1, [] => []
  | fuel + 1, b :: rest =>
    (DecodeRune (b :: rest)).1 :: runesN fuel ((b :: rest).drop (DecodeRune (b :: rest)).2)

/-- All the runes of a reader holding `s`. -/
def runes (s : GoString) : List Nat := runesN s.length s

/-! ## Ingestion from a reader: `fmt.Fscan` -/

/-- `isSpace` of package `fmt` (its table `space` of white-space code points). -/
def isSpace (r : Nat) : Bool :=
  (0x0009 ≤ r ∧ r ≤ 0x000D) ∨ r = 0x0020 ∨ r = 0x0085 ∨ r = 0x00A0 ∨ r = 0x1680 ∨
  (0x2000 ≤ r ∧ r ≤ 0x200A) ∨ r = 0x2028 ∨ r = 0x2029 ∨ r = 0x202F ∨ r = 0x205F ∨ r = 0x3000

/-- One call `fmt.Fscan(br, &s)` on the runes not yet consumed: leading white space
(newlines included) is skipped, then the maximal run of non-space runes is the token.
`none` is the error at end of input; otherwise the token and the runes left. -/
def Fscan (rs : List Nat) : Option (GoString × List Nat) :=
  match rs.dropWhile isSpace with
  | [] => none
  | r :: rest =>
    some ((((r :: rest).takeWhile (fun x => !isSpace x)).map EncodeRune).flatten,
          (r :: rest).dropWhile (fun x => !isSpace x))

/-- The `for { ... }` loop of `Build`; every iteration consumes at least one rune, so
`fuel` above the number of runes is never exhausted. -/
def scanLoop : Nat → Option Table → Prefix → List Nat → Option (Option Table × Prefix)
  | 0, m, p, _ => some (m, p)
  | fuel + 1, m, p, rs =>
    match Fscan rs with
    | none => some (m, p)
    | some (s, rs1) =>
      match observe m p s with
      | none => none
      | some (m1, q) => scanLoop fuel m1 q rs1

/-- `func (c *Chain) Build(r io.Reader)` for a reader whose content is `r`; the result is
the Chain after the call, `none` when the call panics. -/
def Chain.Build (c : Markov.Chain) (r : GoString) : Option Markov.Chain :=
  match scanLoop ((runes r).length + 1) c.Chain (makePrefix PrefixLen) (runes r) with
  | none => none
  | some (m, _) => some ⟨c.Nick, m⟩

/-! ## Generation -/

/-- `rand.Intn(n)` on the raw draw `raw`: panics when `n ≤ 0`, otherwise a value of
`[0, n)`. -/
def Intn (raw n : Nat) : Option Nat :=
  if n = 0 then none else some (raw % n)

/-- Local state of `Generate`: the Prefix `p`, the slice `words`, and how many values have
been drawn from the random source. -/
structure GenState where
  p : Prefix
  words : List GoString
  draws : Nat
deriving DecidableEq

/-- What one iteration of the loop of `Generate` does. -/
inductive Step where
  | next (s : GenState)
  | halt
  | fault
deriving DecidableEq

/-- One iteration of `for { choices := c.Chain[p.String()]; if len(choices) == 0 { break };
next := choices[rand.Intn(len(choices))]; words = append(words, next); p.Shift(next) }`. -/
def genStep (c : Markov.Chain) (rnd : Nat → Nat) (s : GenState) : Step :=
  let choices := c.read (Prefix.String s.p)
  if choices.length = 0 then Step.halt
  else
    match Intn (rnd s.draws) choices.length with
    | none => Step.fault
    | some i =>
      match choices.get? i with
      | none => Step.fault
      | some next =>
        match Prefix.Shift s.p next with
        | none => Step.fault
        | some q => Step.next ⟨q, s.words ++ [next], s.draws + 1⟩

/-- How a run of `Generate` stands after a bounded number of loop iterations. -/
inductive Outcome where
  | returned (out : GoString) (final : GenState)
  | panicked
  | running (s : GenState)
deriving DecidableEq

/-- The loop of `Generate`, at most `fuel` iterations, then
`return strings.Join(words, " ")`. -/
def genLoop (c : Markov.Chain) (rnd : Nat → Nat) : Nat → GenState → Outcome
  | 0, s => Outcome.running s
  | fuel + 1, s =>
    match genStep c rnd s with
    | Step.halt => Outcome.returned (Join s.words [SP]) s
    | Step.fault => Outcome.panicked
    | Step.next s1 => genLoop c rnd fuel s1

/-- Initial local state of `Generate`. -/
def genInit : GenState := ⟨makePrefix PrefixLen, [], 0⟩

/-- `func (c *Chain) Generate() string`, run for at most `fuel` loop iterations with the
random draws `rnd`. -/
def Chain.Generate (c : Markov.Chain) (rnd : Nat → Nat) (fuel : Nat) : Outcome :=
  genLoop c rnd fuel genInit

/-! ## Specification-side notions -/

/-- The token at position `i` of a sequence, the empty string outside of it. -/
def tokAt (ts : List GoString) (i : Int) : GoString :=
  if i < 0 then [] else ts.getD i.toNat []

/-- The window preceding position `i`: the tokens at `i - 2` and `i - 1`, the empty string
for positions before the start. -/
def windowAt (ts : List GoString) (i : Nat) : Prefix :=
  [tokAt ts ((i : Int) - 2), tokAt ts ((i : Int) - 1)]

/-- The tokens of `ts`, in order, whose preceding window serialises to `k`. -/
def observed (ts : List GoString) (k : GoString) : List GoString :=
  (List.range ts.length).filterMap
    (fun i => if Prefix.String (windowAt ts i) = k then ts.get? i else none)

/-! ## Notions used by the statements and proofs -/

/-- Invariant of the loop of `Generate`. -/
def GenInv (c : Markov.Chain) (rnd : Nat → Nat) (s : GenState) : Prop :=
  s.p = windowAt s.words s.words.length ∧ s.draws = s.words.length ∧
  ∀ i, i < s.words.length →
    ∃ j, Intn (rnd i) (c.read (Prefix.String (windowAt s.words i))).length = some j ∧
      j < (c.read (Prefix.String (windowAt s.words i))).length ∧
      (c.read (Prefix.String (windowAt s.words i))).get? j = s.words.get? i

/-- An edge of the transition graph over prefix windows: `q` is `p` after shifting in one
of the successors recorded for the serialisation of `p`. -/
def Edge (c : Markov.Chain) (p q : Prefix) : Prop :=
  ∃ w, w ∈ c.read (Prefix.String p) ∧ Prefix.Shift p w = some q

/-- Prefix windows reachable from the all-empty Prefix. -/
def Reachable (c : Markov.Chain) (p : Prefix) : Prop :=
  Relation.ReflTransGen (Edge c) (makePrefix PrefixLen) p

/-- No reachable window lies on a cycle of the transition graph. -/
def Acyclic (c : Markov.Chain) : Prop :=
  ∀ p, Reachable c p → ¬ Relation.TransGen (Edge c) p p

/-- A Chain built by hand for examples: the table of the corpus `"a b c"`. -/
def chainABC : Markov.Chain :=
  ⟨ascii "all", some [(ascii " ", [ascii "a"]), (ascii " a", [ascii "b"]),
    (ascii "a b", [ascii "c"])]⟩

/-- The table of the corpus `"a a a"`, as `BuildFromString` builds it. -/
def chainAAA : Markov.Chain :=
  ⟨ascii "all", some [(ascii " ", [ascii "a"]), (ascii " a", [ascii "a"]),
    (ascii "a a", [ascii "a"])]⟩

/-- Every token stored in the table of the Chain. -/
def Chain.tokens (c : Markov.Chain) : List GoString :=
  match c.Chain with
  | none => []
  | some t => (t.map Prod.snd).flatten

/-- Position of a window of `chainABC` along its only path. -/
def rankABC (p : Prefix) : Nat :=
  if p = [[], []] then 0
  else if p = [[], ascii "a"] then 1
  else if p = [ascii "a", ascii "b"] then 2
  else 3

/-- The pairwise distinct tokens `a`, `aa`, `aaa`, ... (the first `n` of them). -/
def distinctToks (n : Nat) : List GoString :=
  (List.range n).map (fun i => List.replicate (i + 1) 97)

/-! ## JSON (package `encoding/json`): what `json.Marshal` writes for a `*Chain`

String escaping is that of current Go releases (HTML-safe, with `\b` and `\f`); earlier
releases write the same bytes as `\u0008` and `\u000c`, which `Unmarshal` reads back
alike. -/

/-- The digit of `"0123456789abcdef"` at index `n`. -/
def hexDigit (n : Nat) : Nat := if n < 10 then 48 + n else 87 + n

/-- The table `htmlSafeSet`: ASCII bytes written as they are inside a JSON string. -/
def htmlSafe (b : Nat) : Bool :=
  0x20 ≤ b ∧ b < 0x80 ∧ b ≠ 0x22 ∧ b ≠ 0x5C ∧ b ≠ 0x3C ∧ b ≠ 0x3E ∧ b ≠ 0x26

/-- The escape written for an ASCII byte that is not in `htmlSafeSet`. -/
def escapeByte (b : Nat) : List Nat :=
  if b = 0x5C ∨ b = 0x22 then [0x5C, b]
  else if b = 0x08 then [0x5C, 0x62]
  else if b = 0x0C then [0x5C, 0x66]
  else if b = 0x0A then [0x5C, 0x6E]
  else if b = 0x0D then [0x5C, 0x72]
  else if b = 0x09 then [0x5C, 0x74]
  else [0x5C, 0x75, 0x30, 0x30, hexDigit (b / 16), hexDigit (b % 16)]

/-- One iteration of the loop of `appendString` (with `escapeHTML`) on the input
`b :: rest`: what is written and the input left.  An ASCII byte is written as it is or
escaped; a byte that starts no well-formed UTF-8 sequence is written as the escape of U+FFFD; U+2028
and U+2029 are written as escapes; any other rune is copied. -/
def escapeStep (b : Nat) (rest : List Nat) : List Nat × List Nat :=
  if b < 0x80 then
    (if htmlSafe b then [b] else escapeByte b, rest)
  else if (DecodeRune ((b :: rest).take 4)).1 = RuneError ∧
      (DecodeRune ((b :: rest).take 4)).2 = 1 then
    ([0x5C, 0x75, 0x66, 0x66, 0x66, 0x64], rest)
  else if (DecodeRune ((b :: rest).take 4)).1 = 0x2028 ∨
      (DecodeRune ((b :: rest).take 4)).1 = 0x2029 then
    ([0x5C, 0x75, 0x32, 0x30, 0x32, hexDigit ((DecodeRune ((b :: rest).take 4)).1 % 16)],
      (b :: rest).drop (DecodeRune ((b :: rest).take 4)).2)
  else
    ((b :: rest).take (DecodeRune ((b :: rest).take 4)).2,
      (b :: rest).drop (DecodeRune ((b :: rest).take 4)).2)

/-- The loop of `appendString`: the contents of the JSON string for `s`.
`fuel` bounds the number of iterations; `len(s)` is enough. -/
def escapeN : Nat → GoString → List Nat
  | 0, _ => []
  | _ + 1, [] => []
  | fuel + 1, b :: rest => (escapeStep b rest).1 ++ escapeN fuel (escapeStep b rest).2

/-- `appendString`: the JSON string literal for `s`. -/
def quote (s : GoString) : List Nat := [0x22] ++ escapeN s.length s ++ [0x22]

/-- Items after the first one of an array or object, then the closing byte. -/
def encTail (close : Nat) : List (List Nat) → List Nat
  | [] => [close]
  | x :: xs => [0x2C] ++ x ++ encTail close xs

/-- Comma-separated items between `opn` and `close`. -/
def encSeq (opn close : Nat) : List (List Nat) → List Nat
  | [] => [opn, close]
  | x :: xs => [opn] ++ x ++ encTail close xs

/-- Nat-wise order of Go strings (`<` on `string`). -/
def strLess : GoString → GoString → Bool
  | _, [] => false
  | [], _ :: _ => true
  | a :: as, b :: bs => if a < b then true else if b < a then false else strLess as bs

/-- The keys of a map in the order `json.Marshal` writes them: each once, sorted. -/
def sortedKeys (t : Table) : List GoString :=
  (t.keys.dedup).insertionSort (fun a b => strLess b a = false)

/-- A `[]string` value: `null` for the nil slice, otherwise the array of its strings.
The embedding does not tell the nil slice from an empty one, so `isNil` says which of the
two an empty list stands for. -/
def encSlice (isNil : Bool) (v : List GoString) : List Nat :=
  if v = [] ∧ isNil = true then [0x6E, 0x75, 0x6C, 0x6C]
  else encSeq 0x5B 0x5D (v.map quote)

/-- A non-nil `map[string][]string` value: an object with the keys in sorted order. -/
def encMap (nilSlice : GoString → Bool) (t : Table) : List Nat :=
  encSeq 0x7B 0x7D
    ((sortedKeys t).map (fun k => quote k ++ [0x3A] ++ encSlice (nilSlice k) (t.get k)))

/-- `json.Marshal(c)` for `c *Chain`: `{"Nick":...,"Chain":...}`.  It cannot fail on a
value made of strings, slices and a map with string keys. -/
def Marshal (nilSlice : GoString → Bool) (c : Markov.Chain) : Option (List Nat) :=
  some (ascii "\x7b\"Nick\":" ++ quote c.Nick ++ ascii ",\"Chain\":" ++
    (match c.Chain with
     | none => ascii "null"
     | some t => encMap nilSlice t) ++ ascii "\x7d")

/-- `func (c *Chain) Encode() ([]byte, error)`; `none` is a non-nil error.
`nilSlice k` tells whether an empty successor list stored under `k` is the nil slice. -/
def Chain.Encode (c : Markov.Chain) (nilSlice : GoString → Bool) : Option (List Nat) :=
  match Marshal nilSlice c with
  | none => none
  | some enc => some enc

/-! ## JSON: what `json.Unmarshal` reads into a `*Chain` -/

/-- A JSON value. -/
inductive Json where
  | null
  | bool (b : Bool)
  | num (raw : List Nat)
  | str (s : GoString)
  | arr (xs : List Json)
  | obj (members : List (GoString × Json))

/-- JSON white space. -/
def isWs (b : Nat) : Bool := b = 0x20 ∨ b = 0x09 ∨ b = 0x0A ∨ b = 0x0D

/-- Skip JSON white space. -/
def skipWs (s : List Nat) : List Nat := s.dropWhile isWs

/-- Value of a hexadecimal digit. -/
def hexVal (b : Nat) : Option Nat :=
  if 0x30 ≤ b ∧ b ≤ 0x39 then some (b - 0x30)
  else if 0x61 ≤ b ∧ b ≤ 0x66 then some (b - 0x61 + 10)
  else if 0x41 ≤ b ∧ b ≤ 0x46 then some (b - 0x41 + 10)
  else none

/-- Value of four hexadecimal digits at the head of `s`. -/
def hex4 (s : List Nat) : Option Nat :=
  match s with
  | h1 :: h2 :: h3 :: h4 :: _ =>
    match hexVal h1, hexVal h2, hexVal h3, hexVal h4 with
    | some a, some b, some c, some d => some (a * 4096 + b * 256 + c * 16 + d)
    | _, _, _, _ => none
  | _ => none

/-- `getu4`: the value of a leading `\uXXXX`, `none` (Go: `-1`) if there is none. -/
def getu4 (s : List Nat) : Option Nat :=
  match s with
  | 0x5C :: 0x75 :: rest => hex4 rest
  | _ => none

/-- States of the scanner inside a string literal: in the text, after a backslash, and
inside `\uXXXX` with `n + 1` hexadecimal digits still to come. -/
inductive StrState where
  | text
  | esc
  | hex (n : Nat)
deriving DecidableEq

/-- Put `b` in front of the raw contents found by the rest of the scan. -/
def keep (b : Nat) : Option (List Nat × List Nat) → Option (List Nat × List Nat)
  | none => none
  | some (raw, r) => some (b :: raw, r)

/-- The scanner inside a string literal, after the opening quote: the raw contents up to
the closing quote and the input after it.  Control bytes and malformed escapes are syntax
errors. -/
def scanStr : StrState → List Nat → Option (List Nat × List Nat)
  | _, [] => none
  | StrState.text, b :: rest =>
    if b = 0x22 then some ([], rest)
    else if b = 0x5C then keep b (scanStr StrState.esc rest)
    else if b < 0x20 then none
    else keep b (scanStr StrState.text rest)
  | StrState.esc, b :: rest =>
    if b = 0x75 then keep b (scanStr (StrState.hex 3) rest)
    else if b = 0x62 ∨ b = 0x66 ∨ b = 0x6E ∨ b = 0x72 ∨ b = 0x74 ∨ b = 0x5C ∨ b = 0x2F
        ∨ b = 0x22 then keep b (scanStr StrState.text rest)
    else none
  | StrState.hex n, b :: rest =>
    if (hexVal b).isSome then
      keep b (scanStr (if n = 0 then StrState.text else StrState.hex (n - 1)) rest)
    else none

/-- The scanner started right after the opening quote of a string literal. -/
def scanString (s : List Nat) : Option (List Nat × List Nat) := scanStr StrState.text s

/-- The byte a one-letter escape stands for. -/
def unescape (e : Nat) : Option Nat :=
  if e = 0x22 ∨ e = 0x5C ∨ e = 0x2F ∨ e = 0x27 then some e
  else if e = 0x62 then some 0x08
  else if e = 0x66 then some 0x0C
  else if e = 0x6E then some 0x0A
  else if e = 0x72 then some 0x0D
  else if e = 0x74 then some 0x09
  else none

/-- `utf16.DecodeRune`: the code point of a surrogate pair, U+FFFD if it is not one. -/
def utf16Decode (r1 r2 : Nat) : Nat :=
  if 0xD800 ≤ r1 ∧ r1 < 0xDC00 ∧ 0xDC00 ≤ r2 ∧ r2 < 0xE000 then
    (r1 - 0xD800) * 1024 + (r2 - 0xDC00) + 0x10000
  else RuneError

/-- One iteration of the loop of `unquoteBytes` on the raw contents `c :: rest`: the
bytes produced and the raw contents left; `none` when the contents are rejected.
Escapes are replaced and the text is coerced to well-formed UTF-8. -/
def unquoteStep (c : Nat) (rest : List Nat) : Option (List Nat × List Nat) :=
  if c = 0x5C then
    match rest.head? with
    | none => none
    | some e =>
      if e = 0x75 then
        match hex4 rest.tail with
        | none => none
        | some rr =>
          if 0xD800 ≤ rr ∧ rr < 0xE000 then
            match getu4 (rest.drop 5) with
            | some rr1 =>
              if utf16Decode rr rr1 ≠ RuneError then
                some (EncodeRune (utf16Decode rr rr1), rest.drop 11)
              else some (EncodeRune RuneError, rest.drop 5)
            | none => some (EncodeRune RuneError, rest.drop 5)
          else some (EncodeRune rr, rest.drop 5)
      else
        match unescape e with
        | none => none
        | some b => some ([b], rest.tail)
  else if c = 0x22 ∨ c < 0x20 then none
  else if c < 0x80 then some ([c], rest)
  else
    some (EncodeRune (DecodeRune (c :: rest)).1, (c :: rest).drop (DecodeRune (c :: rest)).2)

/-- The loop of `unquoteBytes` on the raw contents of a string literal.  `fuel` bounds
the number of iterations; `len(s)` is enough. -/
def unquoteN : Nat → List Nat → Option GoString
  | _, [] => some []
  | 0, _ :: _ => none
  | fuel + 1, c :: rest =>
    match unquoteStep c rest with
    | none => none
    | some (d, tail) =>
      match unquoteN fuel tail with
      | none => none
      | some t => some (d ++ t)

/-- `unquote` on the raw contents of a string literal. -/
def unquote (raw : List Nat) : Option GoString := unquoteN raw.length raw

/-- A string literal at the head of the input (after its opening quote): the string it
denotes and the input after it. -/
def parseString (s : List Nat) : Option (GoString × List Nat) :=
  match scanString s with
  | none => none
  | some (raw, r) =>
    match unquote raw with
    | none => none
    | some str => some (str, r)

/-- Digits at the head of the input. -/
def digits (s : List Nat) : List Nat := s.takeWhile (fun b => 0x30 ≤ b ∧ b ≤ 0x39)

/-- The optional fraction of a number: `.` and at least one digit; `none` is a syntax
error. -/
def parseFrac (s : List Nat) : Option (List Nat) :=
  match s with
  | [] => some []
  | b :: rest =>
    if b = 0x2E then (if digits rest = [] then none else some (b :: digits rest))
    else some []

/-- The optional exponent of a number: `e` or `E`, an optional sign and at least one
digit; `none` is a syntax error. -/
def parseExp (s : List Nat) : Option (List Nat) :=
  match s with
  | [] => some []
  | e :: rest =>
    if e = 0x65 ∨ e = 0x45 then
      match rest with
      | [] => none
      | sg :: rest1 =>
        if sg = 0x2B ∨ sg = 0x2D then
          (if digits rest1 = [] then none else some (e :: sg :: digits rest1))
        else (if digits rest = [] then none else some (e :: digits rest))
    else some []

/-- A JSON number at the head of the input: its text and the input after it. -/
def parseNumber (s : List Nat) : Option (List Nat × List Nat) :=
  let sign : List Nat := if s.head? = some 0x2D then [0x2D] else []
  let s1 := s.drop sign.length
  let int : List Nat := if s1.head? = some 0x30 then [0x30] else digits s1
  if int = [] then none
  else
    match parseFrac (s1.drop int.length) with
    | none => none
    | some fr =>
      match parseExp (s1.drop (int.length + fr.length)) with
      | none => none
      | some ex =>
        some (sign ++ int ++ fr ++ ex, s1.drop (int.length + fr.length + ex.length))

mutual

/-- A JSON value at the head of the input (white space before it allowed): the value and
the input after it; `none` is a syntax error.  `fuel` bounds the nesting of calls. -/
def parseValue : Nat → List Nat → Option (Json × List Nat)
  | 0, _ => none
  | fuel + 1, s =>
    match skipWs s with
    | [] => none
    | b :: rest =>
      if b = 0x22 then
        match parseString rest with
        | none => none
        | some (str, r) => some (Json.str str, r)
      else if b = 0x7B then
        match skipWs rest with
        | [] => none
        | b1 :: r =>
          if b1 = 0x7D then some (Json.obj [], r)
          else
            match parseMembers fuel (b1 :: r) with
            | none => none
            | some (ms, r1) => some (Json.obj ms, r1)
      else if b = 0x5B then
        match skipWs rest with
        | [] => none
        | b1 :: r =>
          if b1 = 0x5D then some (Json.arr [], r)
          else
            match parseElems fuel (b1 :: r) with
            | none => none
            | some (xs, r1) => some (Json.arr xs, r1)
      else if (b :: rest).take 4 = ascii "null" then some (Json.null, (b :: rest).drop 4)
      else if (b :: rest).take 4 = ascii "true" then some (Json.bool true, (b :: rest).drop 4)
      else if (b :: rest).take 5 = ascii "false" then
        some (Json.bool false, (b :: rest).drop 5)
      else
        match parseNumber (b :: rest) with
        | none => none
        | some (raw, r) => some (Json.num raw, r)

/-- The elements of a non-empty array up to and including the closing bracket. -/
def parseElems : Nat → List Nat → Option (List Json × List Nat)
  | 0, _ => none
  | fuel + 1, s =>
    match parseValue fuel s with
    | none => none
    | some (v, r) =>
      match skipWs r with
      | [] => none
      | b :: r1 =>
        if b = 0x2C then
          match parseElems fuel r1 with
          | none => none
          | some (vs, r2) => some (v :: vs, r2)
        else if b = 0x5D then some ([v], r1)
        else none

/-- The members of a non-empty object up to and including the closing brace. -/
def parseMembers : Nat → List Nat → Option (List (GoString × Json) × List Nat)
  | 0, _ => none
  | fuel + 1, s =>
    match skipWs s with
    | [] => none
    | q :: r =>
      if q = 0x22 then
        match parseString r with
        | none => none
        | some (key, r1) =>
          match skipWs r1 with
          | [] => none
          | colon :: r2 =>
            if colon = 0x3A then
              match parseValue fuel r2 with
              | none => none
              | some (v, r3) =>
                match skipWs r3 with
                | [] => none
                | b :: r4 =>
                  if b = 0x2C then
                    match parseMembers fuel r4 with
                    | none => none
                    | some (ms, r5) => some ((key, v) :: ms, r5)
                  else if b = 0x7D then some ([(key, v)], r4)
                  else none
            else none
      else none

end

/-- The whole input as one JSON value (`checkValid`): white space may surround it,
nothing else may follow. -/
def parseJson (data : List Nat) : Option Json :=
  match parseValue (2 * data.length + 2) data with
  | none => none
  | some (v, r) => if skipWs r = [] then some v else none

/-- ASCII lower-case letters to upper case. -/
def upper (c : Nat) : Nat := if 0x61 ≤ c ∧ c ≤ 0x7A then c - 32 else c

/-- Folding of an object key for the case-insensitive match of struct field names:
ASCII letters to upper case and the Kelvin sign U+212A to `K`.  (No other rune
folds to a letter of `NICK` or `CHAIN`.) -/
def foldKey : GoString → List Nat
  | [] => []
  | [c] => [upper c]
  | [c, d] => [upper c, upper d]
  | c :: d :: e :: rest =>
    if c = 0xE2 ∧ d = 0x84 ∧ e = 0xAA then 0x4B :: foldKey rest
    else upper c :: foldKey (d :: e :: rest)

/-- A JSON value stored into a `string`: a string is stored, `null` leaves the `string`
as it is, anything else is an `UnmarshalTypeError` (`none`). -/
def storeString (old : GoString) : Json → Option GoString
  | Json.str s => some s
  | Json.null => some old
  | _ => none

/-- The elements of an array stored into a fresh `[]string`. -/
def storeElems : List Json → Option (List GoString)
  | [] => some []
  | x :: xs =>
    match storeString [] x, storeElems xs with
    | some s, some ss => some (s :: ss)
    | _, _ => none

/-- A JSON value stored into a fresh `[]string` (a map element). -/
def storeSlice : Json → Option (List GoString)
  | Json.arr xs => storeElems xs
  | Json.null => some []
  | _ => none

/-- The members of an object stored one after the other into a map. -/
def storeMembers : Table → List (GoString × Json) → Option Table
  | t, [] => some t
  | t, (k, v) :: ms =>
    match storeSlice v with
    | none => none
    | some sl => storeMembers (t.set k sl) ms

/-- A JSON value stored into the field `Chain`: an object is stored into the map (made
first if it is nil), `null` makes the map nil. -/
def storeMap (old : Option Table) : Json → Option (Option Table)
  | Json.obj ms =>
    match storeMembers (old.getD []) ms with
    | none => none
    | some t => some (some t)
  | Json.null => some none
  | _ => none

/-- The members of the top-level object stored into the fields of a `Chain`: a key
selects the field whose name it equals, exactly or up to case; members whose key matches
no field are skipped. -/
def storeFields : Markov.Chain → List (GoString × Json) → Option Markov.Chain
  | c, [] => some c
  | c, (k, v) :: ms =>
    if foldKey k = ascii "NICK" then
      match storeString c.Nick v with
      | none => none
      | some s => storeFields ⟨s, c.Chain⟩ ms
    else if foldKey k = ascii "CHAIN" then
      match storeMap c.Chain v with
      | none => none
      | some m => storeFields ⟨c.Nick, m⟩ ms
    else storeFields c ms

/-- What `Decode` returns: an error, or a nil error with a pointer that is nil or not. -/
inductive Decoded where
  | failed
  | nilChain
  | chain (c : Markov.Chain)
deriving DecidableEq

/-- `json.Unmarshal(data, &c)` for `var c *Chain`. -/
def Unmarshal (data : List Nat) : Decoded :=
  match parseJson data with
  | none => Decoded.failed
  | some Json.null => Decoded.nilChain
  | some (Json.obj ms) =>
    match storeFields ⟨[], none⟩ ms with
    | none => Decoded.failed
    | some c => Decoded.chain c
  | some _ => Decoded.failed

/-- `func Decode(data []byte) (*Chain, error)`. -/
def Decode (data : List Nat) : Decoded :=
  match Unmarshal data with
  | Decoded.failed => Decoded.failed
  | r => r


/-! ## Well-formed UTF-8 -/

/-- `utf8.ValidString`, by `fuel` decoding steps: no position where a rune starts decodes
to an encoding error. -/
def validN : Nat → GoString → Bool
  | 0, s => s.isEmpty
  | _ + 1, [] => true
  | fuel + 1, b :: rest =>
    if (DecodeRune (b :: rest)).1 = RuneError ∧ (DecodeRune (b :: rest)).2 = 1 then false
    else validN fuel ((b :: rest).drop (DecodeRune (b :: rest)).2)

/-- `utf8.ValidString(s)`: `s` is well-formed UTF-8. -/
def ValidString (s : GoString) : Bool := validN s.length s

/-- A two-byte UTF-8 sequence. -/
def Seq2 (b b1 : Nat) : Prop := 0xC2 ≤ b ∧ b ≤ 0xDF ∧ 0x80 ≤ b1 ∧ b1 ≤ 0xBF

/-- A three-byte UTF-8 sequence. -/
def Seq3 (b b1 b2 : Nat) : Prop :=
  0xE0 ≤ b ∧ b ≤ 0xEF ∧ 0x80 ≤ b1 ∧ b1 ≤ 0xBF ∧ (b = 0xE0 → 0xA0 ≤ b1) ∧
  (b = 0xED → b1 ≤ 0x9F) ∧ 0x80 ≤ b2 ∧ b2 ≤ 0xBF

/-- A four-byte UTF-8 sequence. -/
def Seq4 (b b1 b2 b3 : Nat) : Prop :=
  0xF0 ≤ b ∧ b ≤ 0xF4 ∧ 0x80 ≤ b1 ∧ b1 ≤ 0xBF ∧ (b = 0xF0 → 0x90 ≤ b1) ∧
  (b = 0xF4 → b1 ≤ 0x8F) ∧ 0x80 ≤ b2 ∧ b2 ≤ 0xBF ∧ 0x80 ≤ b3 ∧ b3 ≤ 0xBF

/-- What the string scanner and `unquote` do with one piece `chunk` written by
`appendString` for the bytes `d` of the source string. -/
def ChunkOK (chunk d : List Nat) : Prop :=
  chunk ≠ [] ∧
  (∀ Y raw r, scanStr StrState.text Y = some (raw, r) →
    scanStr StrState.text (chunk ++ Y) = some (chunk ++ raw, r)) ∧
  (∀ Y, ∃ c rest, chunk ++ Y = c :: rest ∧ unquoteStep c rest = some (d, Y))

/-- The JSON value `encSlice` writes for a slice. -/
def sliceJson (isNil : Bool) (v : List GoString) : Json :=
  if v = [] ∧ isNil = true then Json.null else Json.arr (v.map Json.str)

/-- Every string of the Chain (identity, keys, successors) is well-formed UTF-8. -/
def Chain.ValidUTF8 (c : Markov.Chain) : Prop :=
  ValidString c.Nick = true ∧
  ∀ t, c.Chain = some t → ∀ e ∈ t, ValidString e.1 = true ∧ ∀ w ∈ e.2, ValidString w = true

/-- One member of the object `encMap` writes: the key, a colon, the slice. -/
def encMember (nl : GoString → Bool) (val : GoString → List GoString) (k : GoString) :
    List Nat :=
  quote k ++ [0x3A] ++ encSlice (nl k) (val k)

/-- A Chain built by hand for examples: identity `all`, `the cat` followed by `sat` and
`ran`, `cat sat` followed by `the`. -/
def chainCat : Markov.Chain :=
  ⟨ascii "all", some [(ascii "the cat", [ascii "sat", ascii "ran"]),
    (ascii "cat sat", [ascii "the"])]⟩


/-! ## Sequences of ingestions -/

/-- One ingestion call on a Chain: `c.Build(r)` on a reader holding `r`, or
`c.BuildFromString(s)`. -/
inductive Source where
  | reader (r : GoString)
  | text (s : GoString)

/-- The Chain after one ingestion call; `none` when the call panics. -/
def ingestOne (c : Markov.Chain) : Source → Option Markov.Chain
  | Source.reader r => c.Build r
  | Source.text s => c.BuildFromString s

/-- The Chain after successive ingestion calls; `none` when one of them panics. -/
def ingest : Markov.Chain → List Source → Option Markov.Chain
  | c, [] => some c
  | c, src :: rest =>
    match ingestOne c src with
    | none => none
    | some c1 => ingest c1 rest

/-- The tokens that the successive `fmt.Fscan` calls of `Build` deliver, at most `fuel` of
them. -/
def scanTokens : Nat → List Nat → List GoString
  | 0, _ => []
  | fuel + 1, rs =>
    match Fscan rs with
    | none => []
    | some (s, rs1) => s :: scanTokens fuel rs1

/-- No key of the Chain maps to an empty successor list. -/
def NonEmptyLists (c : Markov.Chain) : Prop := ∀ k, c.hasKey k → c.read k ≠ []

/-- The words emitted so far in a run of `Generate`, whether it has returned or is still
running; `none` after a panic. -/
def Outcome.words : Outcome → Option (List GoString)
  | Outcome.returned _ fin => some fin.words
  | Outcome.running s => some s.words
  | Outcome.panicked => none

/-- A well-formed key: the serialisation of a Prefix of two tokens without a space, which
therefore holds exactly one space. -/
def KeyWF (k : GoString) : Prop :=
  k.count SP = 1 ∧ ∃ x y : GoString, k = Prefix.String [x, y] ∧ SP ∉ x ∧ SP ∉ y


/-! ## Ingestion from a log file: `BuildFromFile` -/

/-- The slice expression `a[n:]`: it panics (`none`) unless `n ≤ len(a)`. -/
def sliceFrom {α : Type} (a : List α) (n : Nat) : Option (List α) :=
  if n ≤ a.length then some (a.drop n) else none

/-- The text ingested for one line:
`txt := strings.Split(line, " "); msg := strings.Join(txt[4:], " ")`. -/
def lineText (line : GoString) : Option GoString :=
  match sliceFrom (Split line SP) 4 with
  | none => none
  | some fs => some (Join fs [SP])

/-- The body of the `for scanner.Scan()` loop, line after line:
`full.BuildFromString(msg)` for the text `msg` of the line. -/
def fileLoop : Markov.Chain → List GoString → Option Markov.Chain
  | c, [] => some c
  | c, line :: rest =>
    match lineText line with
    | none => none
    | some msg =>
      match c.BuildFromString msg with
      | none => none
      | some c1 => fileLoop c1 rest

/-- `bufio.MaxScanTokenSize`: a line that does not fit in a buffer of this size stops the
scanner with `ErrTooLong`. -/
def MaxScanTokenSize : Nat := 65536

/-- `dropCR`: a line without its trailing carriage return. -/
def dropCR (l : GoString) : GoString :=
  if l.getLast? = some 13 then l.dropLast else l

/-- The lines a `bufio.Scanner` (split function `ScanLines`) delivers, given the pieces
of the content between newlines, and whether it stopped on a line too long.  The last
piece is what follows the last newline: it is a line only if it is not empty. -/
def scanPieces : List GoString → List GoString × Bool
  | [] => ([], false)
  | [last] =>
    if MaxScanTokenSize ≤ last.length then ([], true)
    else if last = [] then ([], false)
    else ([dropCR last], false)
  | p :: q :: rest =>
    if MaxScanTokenSize ≤ p.length then ([], true)
    else (dropCR p :: (scanPieces (q :: rest)).1, (scanPieces (q :: rest)).2)

/-- The lines of a file with the given content, and whether `scanner.Err()` is not nil. -/
def scanLines (content : GoString) : List GoString × Bool :=
  scanPieces (Split content 10)

/-- `func BuildFromFile(nick, fname string) (*Chain, error)`.  `file` is the content of the
file `fname`, or `none` when it cannot be opened.  The result is the Chain returned and
whether the error returned is not nil; `none` when the call panics. -/
def BuildFromFile (nick : GoString) (file : Option GoString) : Option (Markov.Chain × Bool) :=
  match file with
  | none => some (NewChain nick, true)
  | some content =>
    match fileLoop (NewChain nick) (scanLines content).1 with
    | none => none
    | some full => some (full, (scanLines content).2)

/-- White space of a log line: space, tab, newline, vertical tab, form feed, carriage
return. -/
def isWhite (b : Nat) : Bool := b = 32 ∨ (9 ≤ b ∧ b ≤ 13)

/-- The pieces of a string between consecutive white-space bytes. -/
def splitWhite : GoString → List GoString
  | [] => [[]]
  | b :: rest =>
    if isWhite b then [] :: splitWhite rest
    else
      match splitWhite rest with
      | [] => [[b]]
      | t :: ts => (b :: t) :: ts

/-- The white-space-delimited fields of a string: the non-empty pieces between white
space. -/
def Fields (s : GoString) : List GoString :=
  (splitWhite s).filter (fun t => !t.isEmpty)


/-! ## The key-value store (package `bolt`) and the two functions that use it

The database behind `var db *bolt.DB` is embedded as its buckets, each a map from keys to
values; nested buckets, which this program never creates, and failures of the disk are
left out. -/

/-- A bucket of the database: keys with their values. -/
abbrev Bucket := List (GoString × List Nat)

/-- The buckets of the database, by name. -/
abbrev DB := List (GoString × Bucket)

/-- `b.Get(key)` on a bucket that exists: the value, `none` (Go: `nil`) when the key is
absent. -/
def Bucket.Get : Bucket → GoString → Option (List Nat)
  | [], _ => none
  | (k, v) :: rest, key => if k = key then some v else Bucket.Get rest key

/-- What `b.Put(key, value)` stores when it succeeds: the value of `key` is replaced, or
the key is added. -/
def Bucket.Put : Bucket → GoString → List Nat → Bucket
  | [], key, value => [(key, value)]
  | (k, v) :: rest, key, value =>
    if k = key then (k, value) :: rest else (k, v) :: Bucket.Put rest key value

/-- `tx.Bucket(name)`: the bucket, `none` (Go: a nil `*Bucket`) when there is none of
that name. -/
def DB.Bucket : DB → GoString → Option Bucket
  | [], _ => none
  | (n, b) :: rest, name => if n = name then some b else DB.Bucket rest name

/-- The database with the bucket `name` set to `b` (created if need be). -/
def DB.setBucket : DB → GoString → Markov.Bucket → DB
  | [], name, b => [(name, b)]
  | (n, old) :: rest, name, b =>
    if n = name then (n, b) :: rest else (n, old) :: DB.setBucket rest name b

/-- `bolt.MaxKeySize`. -/
def MaxKeySize : Nat := 32768

/-- `bolt.MaxValueSize`. -/
def MaxValueSize : Nat := 2147483646

/-- The package-level state `var db *bolt.DB; var open bool`. -/
structure Store where
  opened : Bool
  db : DB
deriving DecidableEq

/-- `func (c *Chain) Save() error`: the store after the call and whether the error
returned is nil.  Inside `db.Update`: `CreateBucketIfNotExists("markov")`, `c.Encode()`,
`mBucket.Put([]byte(c.Nick), enc)`; `Put` refuses an empty key, a key longer than
`MaxKeySize` and a value longer than `MaxValueSize`, and a transaction whose function
returns an error is rolled back. -/
def Chain.Save (c : Markov.Chain) (nilSlice : GoString → Bool) (st : Store) : Store × Bool :=
  if st.opened = false then (st, false)
  else
    match c.Encode nilSlice with
    | none => (st, false)
    | some enc =>
      if c.Nick = [] ∨ MaxKeySize < c.Nick.length ∨ MaxValueSize < enc.length then (st, false)
      else
        (⟨st.opened, st.db.setBucket (ascii "markov")
          (((st.db.Bucket (ascii "markov")).getD []).Put c.Nick enc)⟩, true)

/-- What `GetChain` does: it panics, or returns a non-nil error, or returns a nil error
with a pointer to a Chain (a nil pointer when the stored text is `null`). -/
inductive Loaded where
  | panicked
  | failed
  | loaded (c : Option Markov.Chain)
deriving DecidableEq

/-- `func GetChain(nick string) (*Chain, error)`.  Inside `db.View`:
`b := tx.Bucket([]byte("people")); c, err = Decode(b.Get(k))`; when there is no bucket
`people`, `b` is nil and `b.Get` dereferences it. -/
def GetChain (st : Store) (nick : GoString) : Loaded :=
  if st.opened = false then Loaded.failed
  else
    match st.db.Bucket (ascii "people") with
    | none => Loaded.panicked
    | some b =>
      match Decode ((b.Get nick).getD []) with
      | Decoded.failed => Loaded.failed
      | Decoded.nilChain => Loaded.loaded none
      | Decoded.chain c => Loaded.loaded (some c)


/-! ## Prefix lemmas -/

theorem copy_tail {α : Type} (a : α) (tl : List α) :
    ∃ x, copy (a :: tl) tl = tl ++ [x] := by
  unfold copy
  have h1 : tl.take (a :: tl).length = tl := List.take_of_length_le (by simp)
  rw [h1]
  have h2 : ((a :: tl).drop tl.length).length = 1 := by simp
  match h : (a :: tl).drop tl.length, h2 with
  | [x], _ => exact ⟨x, rfl⟩

theorem shift_cons (a : GoString) (tl : Prefix) (w : GoString) :
    Prefix.Shift (a :: tl) w = some (tl ++ [w]) := by
  obtain ⟨x, hx⟩ := copy_tail a tl
  simp [Prefix.Shift, hx]

theorem shift_two (a b w : GoString) : Prefix.Shift [a, b] w = some [b, w] :=
  shift_cons a [b] w

/-! ## Split and Join -/

theorem split_ne_nil (s : GoString) (sep : Nat) : Split s sep ≠ [] := by
  induction s with
  | nil => simp [Split]
  | cons b rest ih =>
    unfold Split
    split
    · simp
    · split <;> simp

theorem split_append_sep (t rest : GoString) (sep : Nat) (h : sep ∉ t) :
    Split (t ++ sep :: rest) sep = t :: Split rest sep := by
  induction t with
  | nil => simp [Split]
  | cons b t ih =>
    have hb : b ≠ sep := fun e => h (by simp [e])
    have ht : sep ∉ t := fun e => h (by simp [e])
    simp [Split, hb, ih ht]

theorem split_no_sep (t : GoString) (sep : Nat) (h : sep ∉ t) : Split t sep = [t] := by
  induction t with
  | nil => simp [Split]
  | cons b t ih =>
    have hb : b ≠ sep := fun e => h (by simp [e])
    have ht : sep ∉ t := fun e => h (by simp [e])
    simp [Split, hb, ih ht]

theorem split_join (ts : List GoString) (sep : Nat) (hne : ts ≠ [])
    (h : ∀ t ∈ ts, sep ∉ t) : Split (Join ts [sep]) sep = ts := by
  induction ts with
  | nil => exact absurd rfl hne
  | cons a rest ih =>
    cases rest with
    | nil => simpa [Join] using split_no_sep a sep (h a (by simp))
    | cons b rest =>
      have ha : sep ∉ a := h a (by simp)
      have hr : ∀ t ∈ b :: rest, sep ∉ t := fun t ht => h t (by simp [ht])
      have := ih (by simp) hr
      simp only [Join, List.append_assoc, List.singleton_append]
      rw [split_append_sep _ _ _ ha, this]

/-! ## Table lemmas -/

theorem get_set (t : Table) (k k1 : GoString) (v : List GoString) :
    (t.set k v).get k1 = if k = k1 then v else t.get k1 := by
  induction t with
  | nil => simp [Table.set, Table.get]
  | cons e rest ih =>
    obtain ⟨k0, v0⟩ := e
    by_cases h0 : k0 = k
    · subst h0
      by_cases h1 : k0 = k1 <;> simp [Table.set, Table.get, h1]
    · by_cases h1 : k0 = k1
      · subst h1
        have : ¬ k = k0 := fun e => h0 e.symm
        simp [Table.set, Table.get, h0, this]
      · simp [Table.set, Table.get, h0, h1, ih]

theorem mem_keys_set (t : Table) (k k1 : GoString) (v : List GoString) :
    k1 ∈ (t.set k v).keys ↔ k1 = k ∨ k1 ∈ t.keys := by
  induction t with
  | nil => simp [Table.set, Table.keys]
  | cons e rest ih =>
    obtain ⟨k0, v0⟩ := e
    by_cases h0 : k0 = k
    · subst h0
      simp [Table.set, Table.keys]
    · simp only [Table.keys] at ih
      simp only [Table.set, h0, if_false, Table.keys, List.map_cons, List.mem_cons, ih]
      tauto

/-! ## The ingestion loop -/

theorem tokAt_nat (ts : List GoString) (i : Nat) : tokAt ts (i : Int) = ts.getD i [] := by
  simp [tokAt]

theorem windowAt_zero (ts : List GoString) : windowAt ts 0 = makePrefix PrefixLen := by
  simp [windowAt, tokAt, makePrefix, PrefixLen, List.replicate]

theorem windowAt_succ (pre vs : List GoString) (v : GoString) :
    Prefix.Shift (windowAt (pre ++ v :: vs) pre.length) v
      = some (windowAt (pre ++ v :: vs) (pre.length + 1)) := by
  unfold windowAt
  rw [shift_two]
  have e1 : (((pre.length + 1 : Nat) : Int) - 2) = (pre.length : Int) - 1 := by omega
  have e2 : (((pre.length + 1 : Nat) : Int) - 1) = ((pre.length : Nat) : Int) := by omega
  rw [e1, e2, tokAt_nat]
  simp [List.getElem_append_right]

theorem observeAll_spec (vs : List GoString) :
    ∀ (t : Table) (pre : List GoString),
      ∃ t1 q, observeAll (some t) (windowAt (pre ++ vs) pre.length) vs = some (some t1, q) ∧
        (∀ k, t1.get k = t.get k ++ (List.range vs.length).filterMap
            (fun i => if Prefix.String (windowAt (pre ++ vs) (pre.length + i)) = k
                      then vs.get? i else none)) ∧
        (∀ k, k ∈ t1.keys ↔ k ∈ t.keys ∨
            ∃ i, i < vs.length ∧ Prefix.String (windowAt (pre ++ vs) (pre.length + i)) = k) := by
  induction vs with
  | nil =>
    intro t pre
    exact ⟨t, _, rfl, by simp, by simp⟩
  | cons v vs ih =>
    intro t pre
    have hl : pre ++ v :: vs = (pre ++ [v]) ++ vs := by simp
    obtain ⟨t1, q, hrun, hget, hkeys⟩ :=
      ih (t.set (Prefix.String (windowAt (pre ++ v :: vs) pre.length))
            (t.get (Prefix.String (windowAt (pre ++ v :: vs) pre.length)) ++ [v])) (pre ++ [v])
    refine ⟨t1, q, ?_, ?_, ?_⟩
    · simp only [observeAll, observe, windowAt_succ]
      rw [hl]
      simpa using hrun
    · intro k
      rw [hget k, get_set, List.length_cons, List.range_succ_eq_map]
      simp only [List.filterMap_cons, List.filterMap_map, Nat.add_zero]
      have hidx : ∀ i, (pre ++ [v]).length + i = pre.length + (i + 1) := by
        intro i; simp; omega
      have hfun : (fun i => if Prefix.String (windowAt (pre ++ [v] ++ vs) ((pre ++ [v]).length + i)) = k
                      then vs.get? i else none)
          = ((fun i => if Prefix.String (windowAt (pre ++ v :: vs) (pre.length + i)) = k
                      then (v :: vs).get? i else none) ∘ Nat.succ) := by
        funext i
        simp only [Function.comp, hidx, ← hl, List.get?_cons_succ]
      rw [hfun]
      by_cases hk : Prefix.String (windowAt (pre ++ v :: vs) pre.length) = k
      · simp [hk]
      · simp [hk]
    · intro k
      rw [hkeys k, mem_keys_set]
      constructor
      · rintro ((h | h) | ⟨i, hi, h⟩)
        · exact Or.inr ⟨0, by simp, by simpa using h.symm⟩
        · exact Or.inl h
        · refine Or.inr ⟨i + 1, by simpa using hi, ?_⟩
          rw [hl]
          have : pre.length + (i + 1) = (pre ++ [v]).length + i := by simp; omega
          rw [this]; exact h
      · rintro (h | ⟨i, hi, h⟩)
        · exact Or.inl (Or.inr h)
        · cases i with
          | zero => exact Or.inl (Or.inl (by simpa using h.symm))
          | succ i =>
            refine Or.inr ⟨i, by simpa using hi, ?_⟩
            have : (pre ++ [v]).length + i = pre.length + (i + 1) := by simp; omega
            rw [this, ← hl]; exact h

theorem build_spec (nick : GoString) (ts : List GoString) (hne : ts ≠ [])
    (hsp : ∀ t ∈ ts, SP ∉ t) :
    ∃ t1, Chain.BuildFromString (NewChain nick) (Join ts [SP]) = some ⟨nick, some t1⟩ ∧
      (∀ k, t1.get k = observed ts k) ∧
      (∀ k, k ∈ t1.keys ↔ ∃ i, i < ts.length ∧ Prefix.String (windowAt ts i) = k) := by
  obtain ⟨t1, q, hrun, hget, hkeys⟩ := observeAll_spec ts [] []
  refine ⟨t1, ?_, ?_, ?_⟩
  · simp only [Chain.BuildFromString, NewChain, split_join ts SP hne hsp]
    simp only [List.nil_append, List.length_nil, windowAt_zero] at hrun
    rw [hrun]
  · intro k
    have := hget k
    simpa [observed, Table.get] using this
  · intro k
    have := hkeys k
    simpa [Table.keys] using this

/-- C1: for a non-empty list of tokens, each non-empty and without a space,
`BuildFromString` on the tokens joined by single spaces, run on an empty Chain, yields a
table in which the successor list of every key `k` is exactly the list, in corpus order,
of the tokens whose preceding window serialises to `k`, and a key is present exactly when
it is the serialisation of the window preceding some token. -/
theorem C1_buildFromString_table (nick : GoString) (ts : List GoString) (hne : ts ≠ [])
    (hts : ∀ t ∈ ts, t ≠ [] ∧ SP ∉ t) :
    ∃ t1, (NewChain nick).BuildFromString (Join ts [SP]) = some ⟨nick, some t1⟩ ∧
      (∀ k, t1.get k = observed ts k) ∧
      (∀ k, k ∈ t1.keys ↔ ∃ i, i < ts.length ∧ Prefix.String (windowAt ts i) = k) :=
  build_spec nick ts hne (fun t ht => (hts t ht).2)

theorem C1_buildFromString_table_witness :
    ([ascii "a", ascii "b", ascii "c"] ≠ []) ∧
    (∀ t ∈ [ascii "a", ascii "b", ascii "c"], t ≠ [] ∧ SP ∉ t) ∧
    (∃ t1, (NewChain (ascii "all")).BuildFromString (Join [ascii "a", ascii "b", ascii "c"] [SP])
        = some ⟨ascii "all", some t1⟩ ∧
      (∀ k, t1.get k = observed [ascii "a", ascii "b", ascii "c"] k) ∧
      (∀ k, k ∈ t1.keys ↔ ∃ i, i < [ascii "a", ascii "b", ascii "c"].length ∧
        Prefix.String (windowAt [ascii "a", ascii "b", ascii "c"] i) = k)) ∧
    (NewChain (ascii "all")).BuildFromString (ascii "a b c") = some chainABC ∧
    ((NewChain (ascii "all")).BuildFromString (ascii "the cat sat the cat ran")).map
        (fun c => (c.read (ascii "the cat"), c.read (ascii "cat sat")))
      = some ([ascii "sat", ascii "ran"], [ascii "the"]) :=
  ⟨by decide, by decide,
   C1_buildFromString_table (ascii "all") [ascii "a", ascii "b", ascii "c"] (by decide)
     (by decide),
   by decide, by decide⟩

/-- C2 (fails on the code): `BuildFromString` does not skip the empty tokens that
`strings.Split` produces. On `"a  b"` the empty string is recorded as a successor (of
`" a"`), and on the empty input it is recorded as the successor of the all-empty Prefix. -/
theorem C2_buildFromString_records_empty_token :
    (NewChain (ascii "all")).BuildFromString (ascii "a  b")
      = some ⟨ascii "all", some [(ascii " ", [ascii "a"]), (ascii " a", [ascii ""]),
          (ascii "a ", [ascii "b"])]⟩ ∧
    (NewChain (ascii "all")).BuildFromString (ascii "")
      = some ⟨ascii "all", some [(ascii " ", [ascii ""])]⟩ := by
  constructor <;> decide

/-- C3 (fails on the code): on `"a  b"` the reader-based `Build` skips the empty token and
records `b` after the window `(, a)`, whereas `BuildFromString` records the empty string
there; the two tables differ. -/
theorem C3_build_differs_from_buildFromString :
    (NewChain (ascii "all")).Build (ascii "a  b")
      = some ⟨ascii "all", some [(ascii " ", [ascii "a"]), (ascii " a", [ascii "b"])]⟩ ∧
    (NewChain (ascii "all")).BuildFromString (ascii "a  b")
      = some ⟨ascii "all", some [(ascii " ", [ascii "a"]), (ascii " a", [ascii ""]),
          (ascii "a ", [ascii "b"])]⟩ ∧
    ((NewChain (ascii "all")).Build (ascii "a  b")).map (fun c => c.read (ascii " a"))
      ≠ ((NewChain (ascii "all")).BuildFromString (ascii "a  b")).map
          (fun c => c.read (ascii " a")) := by
  refine ⟨by decide, by decide, by decide⟩

theorem shift_length (p : Prefix) (w : GoString) (hp : p ≠ []) :
    ∃ q, Prefix.Shift p w = some q ∧ q = p.tail ++ [w] ∧ q.length = p.length := by
  cases p with
  | nil => exact absurd rfl hp
  | cons a tl => exact ⟨tl ++ [w], shift_cons a tl w, rfl, by simp⟩

theorem shiftAll_length (ws : List GoString) :
    ∀ p : Prefix, p ≠ [] → ∃ r, shiftAll p ws = some r ∧ r.length = p.length := by
  induction ws with
  | nil => intro p _; exact ⟨p, rfl, rfl⟩
  | cons w ws ih =>
    intro p hp
    obtain ⟨q, hq, _, hlen⟩ := shift_length p w hp
    have hq0 : q ≠ [] := by
      intro e; rw [e] at hlen; exact hp (List.length_eq_zero.mp hlen.symm)
    obtain ⟨r, hr, hrl⟩ := ih q hq0
    exact ⟨r, by simp [shiftAll, hq, hr], by omega⟩

/-- C9: on a Prefix of length `n ≥ 1`, `Shift(w)` succeeds and leaves a Prefix of the same
length whose first `n - 1` tokens are the old tokens at positions `2..n` in order and whose
last token is `w`; the length is kept by any number of further shifts, and for `n = 1` the
result is `[w]`. -/
theorem C9_shift_slides_window (p : Prefix) (w : GoString) (hn : 1 ≤ p.length) :
    ∃ q, Prefix.Shift p w = some q ∧
      q.length = p.length ∧
      (∀ i, i + 1 < p.length → q.get? i = p.get? (i + 1)) ∧
      q.get? (p.length - 1) = some w ∧
      (∀ ws, ∃ r, shiftAll p ws = some r ∧ r.length = p.length) ∧
      (p.length = 1 → q = [w] ∧ ∀ ws, ∃ r, shiftAll q ws = some r ∧ r.length = 1) := by
  have hp : p ≠ [] := by
    intro e; rw [e] at hn; simp at hn
  obtain ⟨q, hq, hqe, hlen⟩ := shift_length p w hp
  refine ⟨q, hq, hlen, ?_, ?_, fun ws => shiftAll_length ws p hp, ?_⟩
  · intro i hi
    cases p with
    | nil => exact absurd rfl hp
    | cons a tl =>
      simp only [List.length_cons] at hi
      simp only [hqe, List.tail_cons, List.get?_cons_succ]
      simp only [List.get?_eq_getElem?]
      exact List.getElem?_append_left (by omega)
  · cases p with
    | nil => exact absurd rfl hp
    | cons a tl =>
      simp [hqe, List.get?_eq_getElem?]
  · intro h1
    have hq1 : q = [w] := by
      cases p with
      | nil => exact absurd rfl hp
      | cons a tl =>
        have : tl = [] := by
          simp only [List.length_cons] at h1
          exact List.length_eq_zero.mp (by omega)
        simp [hqe, this]
    refine ⟨hq1, fun ws => ?_⟩
    obtain ⟨r, hr, hrl⟩ := shiftAll_length ws q (by simp [hq1])
    exact ⟨r, hr, by simpa [hq1] using hrl⟩

theorem C9_shift_slides_window_witness :
    1 ≤ ([ascii "x"] : Prefix).length ∧
    ∃ q, Prefix.Shift [ascii "x"] (ascii "y") = some q ∧
      q.length = ([ascii "x"] : Prefix).length ∧
      (∀ i, i + 1 < ([ascii "x"] : Prefix).length →
        q.get? i = ([ascii "x"] : Prefix).get? (i + 1)) ∧
      q.get? (([ascii "x"] : Prefix).length - 1) = some (ascii "y") ∧
      (∀ ws, ∃ r, shiftAll [ascii "x"] ws = some r ∧ r.length = ([ascii "x"] : Prefix).length) ∧
      (([ascii "x"] : Prefix).length = 1 →
        q = [ascii "y"] ∧ ∀ ws, ∃ r, shiftAll q ws = some r ∧ r.length = 1) :=
  ⟨by decide, C9_shift_slides_window [ascii "x"] (ascii "y") (by decide)⟩

/-! ## The generation loop -/

theorem genStep_cases (c : Markov.Chain) (rnd : Nat → Nat) (s : GenState) (hp : s.p ≠ []) :
    (c.read (Prefix.String s.p) = [] ∧ genStep c rnd s = Step.halt) ∨
    (∃ j nx q, c.read (Prefix.String s.p) ≠ [] ∧
      Intn (rnd s.draws) (c.read (Prefix.String s.p)).length = some j ∧
      j < (c.read (Prefix.String s.p)).length ∧
      (c.read (Prefix.String s.p)).get? j = some nx ∧
      Prefix.Shift s.p nx = some q ∧
      genStep c rnd s = Step.next ⟨q, s.words ++ [nx], s.draws + 1⟩) := by
  by_cases h : c.read (Prefix.String s.p) = []
  · left
    exact ⟨h, by simp [genStep, h]⟩
  · right
    have hlen : (c.read (Prefix.String s.p)).length ≠ 0 := by
      simpa [List.length_eq_zero] using h
    have hj : rnd s.draws % (c.read (Prefix.String s.p)).length
        < (c.read (Prefix.String s.p)).length := Nat.mod_lt _ (Nat.pos_of_ne_zero hlen)
    obtain ⟨q, hq, _, _⟩ := shift_length s.p
      ((c.read (Prefix.String s.p)).get ⟨_, hj⟩) hp
    refine ⟨_, (c.read (Prefix.String s.p)).get ⟨_, hj⟩, q, h, ?_, hj, ?_, hq, ?_⟩
    · simp [Intn, hlen]
    · exact List.get?_eq_get hj
    · simp only [genStep, Intn, hlen, if_false, List.get?_eq_get hj, hq]

theorem tokAt_append (l l1 : List GoString) (j : Int) (h : j < l.length) :
    tokAt (l ++ l1) j = tokAt l j := by
  unfold tokAt
  by_cases hj : j < 0
  · simp [hj]
  · simp only [hj, if_false]
    have : j.toNat < l.length := by omega
    simp [List.getD, List.getElem?_append_left this]

theorem windowAt_append (l l1 : List GoString) (i : Nat) (h : i ≤ l.length) :
    windowAt (l ++ l1) i = windowAt l i := by
  unfold windowAt
  rw [tokAt_append l l1 _ (by omega), tokAt_append l l1 _ (by omega)]

theorem windowAt_ne_nil (l : List GoString) (i : Nat) : windowAt l i ≠ [] := by
  simp [windowAt]

theorem windowAt_snoc (l : List GoString) (w : GoString) :
    Prefix.Shift (windowAt l l.length) w = some (windowAt (l ++ [w]) (l.length + 1)) := by
  have := windowAt_succ l [] w
  rwa [windowAt_append l [w] l.length (le_refl _)] at this

theorem genInv_init (c : Markov.Chain) (rnd : Nat → Nat) : GenInv c rnd genInit := by
  refine ⟨?_, rfl, ?_⟩
  · simp [genInit, windowAt_zero]
  · intro i hi
    simp [genInit] at hi

theorem genInv_next (c : Markov.Chain) (rnd : Nat → Nat) (s s1 : GenState)
    (hinv : GenInv c rnd s) (hstep : genStep c rnd s = Step.next s1) :
    GenInv c rnd s1 ∧ s1.words.length = s.words.length + 1 := by
  obtain ⟨hp, hd, hall⟩ := hinv
  have hp0 : s.p ≠ [] := by rw [hp]; exact windowAt_ne_nil _ _
  rcases genStep_cases c rnd s hp0 with ⟨_, hh⟩ | ⟨j, nx, q, _, hj, hjlt, hget, hq, hn⟩
  · rw [hh] at hstep; cases hstep
  · rw [hn] at hstep
    cases hstep
    rw [hp, windowAt_snoc] at hq
    cases hq
    refine ⟨⟨by simp, by simp [hd], ?_⟩, by simp⟩
    intro i hi
    simp only [List.length_append, List.length_singleton] at hi
    rw [windowAt_append s.words [nx] i (by omega)]
    by_cases hlt : i < s.words.length
    · obtain ⟨j1, h1, h2, h3⟩ := hall i hlt
      refine ⟨j1, h1, h2, ?_⟩
      rw [h3]
      simp [List.get?_eq_getElem?, List.getElem?_append_left hlt]
    · have hi2 : i = s.words.length := by omega
      subst hi2
      rw [← hp, ← hd]
      refine ⟨j, hj, hjlt, ?_⟩
      rw [hget]
      simp [List.get?_eq_getElem?, hd]

theorem genLoop_returned (c : Markov.Chain) (rnd : Nat → Nat) :
    ∀ (fuel : Nat) (s : GenState) (out : GoString) (fin : GenState),
      GenInv c rnd s → genLoop c rnd fuel s = Outcome.returned out fin →
      GenInv c rnd fin ∧ c.read (Prefix.String fin.p) = [] ∧ out = Join fin.words [SP] := by
  intro fuel
  induction fuel with
  | zero => intro s out fin _ h; simp [genLoop] at h
  | succ fuel ih =>
    intro s out fin hinv h
    have hp0 : s.p ≠ [] := by rw [hinv.1]; exact windowAt_ne_nil _ _
    rcases genStep_cases c rnd s hp0 with ⟨hempty, hh⟩ | ⟨j, nx, q, _, _, _, _, _, hn⟩
    · simp only [genLoop, hh] at h
      cases h
      exact ⟨hinv, hempty, rfl⟩
    · simp only [genLoop, hn] at h
      exact ih _ out fin (genInv_next c rnd s _ hinv hn).1 h

/-- C4: if the walk of `Generate` stops with output words `w_1..w_m`, then the index drawn
at every step is within the bounds of the successor list it indexes, each `w_i` is the
element at that index of (hence an element of) the successor list of the serialised window
`(w_{i-2}, w_{i-1})`, the window after `w_m` has no successors, and the returned string is
the words joined by single spaces. -/
theorem C4_generate_walk_follows_table (c : Markov.Chain) (rnd : Nat → Nat) (fuel : Nat)
    (out : GoString) (fin : GenState)
    (h : c.Generate rnd fuel = Outcome.returned out fin) :
    (∀ i, i < fin.words.length →
      ∃ j, Intn (rnd i) (c.read (Prefix.String (windowAt fin.words i))).length = some j ∧
        j < (c.read (Prefix.String (windowAt fin.words i))).length ∧
        (c.read (Prefix.String (windowAt fin.words i))).get? j = fin.words.get? i) ∧
    (∀ i w, fin.words.get? i = some w →
      w ∈ c.read (Prefix.String (windowAt fin.words i))) ∧
    c.read (Prefix.String (windowAt fin.words fin.words.length)) = [] ∧
    out = Join fin.words [SP] := by
  obtain ⟨⟨hp, _, hall⟩, hstop, hout⟩ :=
    genLoop_returned c rnd fuel genInit out fin (genInv_init c rnd) h
  refine ⟨hall, ?_, by rw [← hp]; exact hstop, hout⟩
  intro i w hw
  have hi : i < fin.words.length := by
    rw [List.get?_eq_getElem?] at hw
    exact (List.getElem?_eq_some_iff.mp hw).1
  obtain ⟨j, _, _, hj⟩ := hall i hi
  rw [hw] at hj
  exact List.get?_mem hj

/-- C8: on a freshly constructed Chain, `Generate` returns the empty string at its first
loop test, without panic and with no random value drawn. -/
theorem C8_generate_on_new_chain (nick : GoString) (rnd : Nat → Nat) (fuel : Nat) :
    (NewChain nick).Generate rnd (fuel + 1) = Outcome.returned [] ⟨makePrefix PrefixLen, [], 0⟩ := by
  rfl

/-! ## The transition graph -/

theorem genStep_edge (c : Markov.Chain) (rnd : Nat → Nat) (s s1 : GenState)
    (hp : s.p ≠ []) (hstep : genStep c rnd s = Step.next s1) :
    Edge c s.p s1.p ∧ s1.words.length = s.words.length + 1 := by
  rcases genStep_cases c rnd s hp with ⟨_, hh⟩ | ⟨j, nx, q, _, _, _, hget, hq, hn⟩
  · rw [hh] at hstep; cases hstep
  · rw [hn] at hstep
    cases hstep
    exact ⟨⟨nx, List.get?_mem hget, hq⟩, by simp⟩

theorem reachable_ne_nil (c : Markov.Chain) (p : Prefix) (h : Reachable c p) : p ≠ [] := by
  induction h with
  | refl => simp [makePrefix, PrefixLen]
  | tail _ hedge ih =>
    obtain ⟨w, _, hs⟩ := hedge
    obtain ⟨q, hq, _, hlen⟩ := shift_length _ w ih
    rw [hq] at hs
    cases hs
    intro e
    rw [e] at hlen
    exact ih (List.length_eq_zero.mp hlen.symm)

theorem genLoop_running (c : Markov.Chain) (rnd : Nat → Nat)
    (hall : ∀ p, Reachable c p → c.read (Prefix.String p) ≠ []) :
    ∀ (k : Nat) (s : GenState), Reachable c s.p →
      ∃ s1, genLoop c rnd k s = Outcome.running s1 ∧
        s1.words.length = s.words.length + k ∧ Reachable c s1.p := by
  intro k
  induction k with
  | zero => intro s hs; exact ⟨s, rfl, rfl, hs⟩
  | succ k ih =>
    intro s hs
    rcases genStep_cases c rnd s (reachable_ne_nil c _ hs) with
      ⟨hempty, _⟩ | ⟨j, nx, q, _, _, _, _, _, hn⟩
    · exact absurd hempty (hall _ hs)
    · obtain ⟨hedge, hlen⟩ := genStep_edge c rnd s _ (reachable_ne_nil c _ hs) hn
      obtain ⟨s1, h1, h2, h3⟩ := ih _ (Relation.ReflTransGen.tail hs hedge)
      refine ⟨s1, ?_, ?_, h3⟩
      · simp only [genLoop, hn]; exact h1
      · rw [h2, hlen]; omega

/-- C6: when every prefix window reachable from the all-empty Prefix has a non-empty
successor list, the walk of `Generate` never stops: for every `k` and every sequence of
random draws, after `k` iterations it is still running and has emitted exactly `k`
tokens. -/
theorem C6_generate_never_stops (c : Markov.Chain)
    (hall : ∀ p, Reachable c p → c.read (Prefix.String p) ≠ [])
    (rnd : Nat → Nat) (k : Nat) :
    ∃ s, c.Generate rnd k = Outcome.running s ∧ s.words.length = k := by
  obtain ⟨s1, h1, h2, _⟩ :=
    genLoop_running c rnd hall k genInit Relation.ReflTransGen.refl
  exact ⟨s1, h1, by simpa [genInit] using h2⟩

theorem chainAAA_reachable (p : Prefix) (h : Reachable chainAAA p) :
    p = [[], []] ∨ p = [[], ascii "a"] ∨ p = [ascii "a", ascii "a"] := by
  induction h with
  | refl => left; rfl
  | tail _ hedge ih =>
    obtain ⟨w, hw, hs⟩ := hedge
    rcases ih with e | e | e <;> subst e
    · have hw1 : w = ascii "a" := by
        have : chainAAA.read (Prefix.String [[], []]) = [ascii "a"] := by decide
        rw [this] at hw; simpa using hw
      subst hw1
      rw [shift_two] at hs; cases hs
      right; left; rfl
    · have hw1 : w = ascii "a" := by
        have : chainAAA.read (Prefix.String [[], ascii "a"]) = [ascii "a"] := by decide
        rw [this] at hw; simpa using hw
      subst hw1
      rw [shift_two] at hs; cases hs
      right; right; rfl
    · have hw1 : w = ascii "a" := by
        have : chainAAA.read (Prefix.String [ascii "a", ascii "a"]) = [ascii "a"] := by decide
        rw [this] at hw; simpa using hw
      subst hw1
      rw [shift_two] at hs; cases hs
      right; right; rfl

theorem chainAAA_total (p : Prefix) (h : Reachable chainAAA p) :
    chainAAA.read (Prefix.String p) ≠ [] := by
  rcases chainAAA_reachable p h with e | e | e <;> subst e <;> decide

theorem C6_generate_never_stops_witness :
    (NewChain (ascii "all")).BuildFromString (ascii "a a a") = some chainAAA ∧
    (∀ p, Reachable chainAAA p → chainAAA.read (Prefix.String p) ≠ []) ∧
    ∃ s, chainAAA.Generate (fun _ => 0) 5 = Outcome.running s ∧ s.words.length = 5 :=
  ⟨by decide, chainAAA_total, C6_generate_never_stops chainAAA chainAAA_total (fun _ => 0) 5⟩

theorem C4_generate_walk_follows_table_witness :
    chainABC.Generate (fun _ => 0) 4
      = Outcome.returned (ascii "a b c") ⟨[ascii "b", ascii "c"], [ascii "a", ascii "b", ascii "c"], 3⟩ ∧
    (∀ i w, [ascii "a", ascii "b", ascii "c"].get? i = some w →
      w ∈ chainABC.read (Prefix.String (windowAt [ascii "a", ascii "b", ascii "c"] i))) :=
  ⟨by decide,
   (C4_generate_walk_follows_table chainABC (fun _ => 0) 4 (ascii "a b c")
      ⟨[ascii "b", ascii "c"], [ascii "a", ascii "b", ascii "c"], 3⟩ (by decide)).2.1⟩

/-! ## Termination on acyclic graphs -/

theorem get_subset_tokens (t : Table) (k w : GoString) (h : w ∈ t.get k) :
    w ∈ (t.map Prod.snd).flatten := by
  induction t with
  | nil => simp [Table.get] at h
  | cons e rest ih =>
    obtain ⟨k0, v0⟩ := e
    simp only [Table.get] at h
    simp only [List.map_cons, List.flatten_cons, List.mem_append]
    split at h
    · exact Or.inl h
    · exact Or.inr (ih h)

theorem read_subset_tokens (c : Markov.Chain) (k w : GoString) (h : w ∈ c.read k) :
    w ∈ c.tokens := by
  unfold Chain.read at h
  unfold Chain.tokens
  split at h
  · exact absurd h (List.not_mem_nil _)
  · rename_i t heq
    exact get_subset_tokens t k w h

theorem reachable_shape (c : Markov.Chain) (p : Prefix) (h : Reachable c p) :
    ∃ x y, p = [x, y] ∧ x ∈ [] :: c.tokens ∧ y ∈ [] :: c.tokens := by
  induction h with
  | refl => exact ⟨[], [], rfl, by simp, by simp⟩
  | tail _ hedge ih =>
    obtain ⟨x, y, e, _, hy⟩ := ih
    obtain ⟨w, hw, hs⟩ := hedge
    subst e
    rw [shift_two] at hs
    cases hs
    exact ⟨y, w, rfl, hy, List.mem_cons_of_mem _ (read_subset_tokens c _ w hw)⟩

theorem reachable_finite (c : Markov.Chain) : {p | Reachable c p}.Finite := by
  apply Set.Finite.subset
    (Finset.finite_toSet
      ((List.product ([] :: c.tokens) ([] :: c.tokens)).map (fun xy => [xy.1, xy.2])).toFinset)
  intro p hp
  obtain ⟨x, y, e, hx, hy⟩ := reachable_shape c p hp
  simp only [Finset.mem_coe, List.mem_toFinset, List.mem_map, Prod.exists]
  exact ⟨x, y, List.mem_product.mpr ⟨hx, hy⟩, e.symm⟩

theorem nodup_length_le_ncard (c : Markov.Chain) (l : List Prefix) (hnd : l.Nodup)
    (hl : ∀ v ∈ l, Reachable c v) : l.length ≤ Set.ncard {p | Reachable c p} := by
  have hsub : ((l.toFinset : Finset Prefix) : Set Prefix) ⊆ {p | Reachable c p} := by
    intro v hv
    exact hl v (by simpa using hv)
  have := Set.ncard_le_ncard hsub (reachable_finite c)
  rwa [Set.ncard_coe_Finset, List.toFinset_card_of_nodup hnd] at this

theorem genLoop_halts (c : Markov.Chain) (hac : Acyclic c) (rnd : Nat → Nat) :
    ∀ (fuel : Nat) (s : GenState) (visited : List Prefix),
      Reachable c s.p → visited.Nodup →
      (∀ v ∈ visited, Reachable c v ∧ Relation.TransGen (Edge c) v s.p) →
      Set.ncard {p | Reachable c p} ≤ visited.length + fuel →
      ∃ n, n ≤ fuel ∧ ∃ out fin, genLoop c rnd n s = Outcome.returned out fin ∧
        fin.words.length + 1 = s.words.length + n := by
  intro fuel
  induction fuel with
  | zero =>
    intro s visited hs hnd hv hN
    exfalso
    have hnotin : s.p ∉ visited := fun hmem => hac _ hs (hv _ hmem).2
    have hle := nodup_length_le_ncard c (s.p :: visited) (List.nodup_cons.mpr ⟨hnotin, hnd⟩)
      (by
        intro v hvm
        rcases List.mem_cons.mp hvm with e | e
        · rw [e]; exact hs
        · exact (hv v e).1)
    simp only [List.length_cons] at hle
    omega
  | succ fuel ih =>
    intro s visited hs hnd hv hN
    have hp0 := reachable_ne_nil c _ hs
    rcases genStep_cases c rnd s hp0 with ⟨_, hh⟩ | ⟨j, nx, q, _, _, _, _, _, hn⟩
    · exact ⟨1, by omega, Join s.words [SP], s, by simp [genLoop, hh], rfl⟩
    · obtain ⟨hedge, hlen⟩ := genStep_edge c rnd s _ hp0 hn
      have hnotin : s.p ∉ visited := fun hmem => hac _ hs (hv _ hmem).2
      obtain ⟨n, hn1, out, fin, hrun, hcount⟩ :=
        ih _ (s.p :: visited) (Relation.ReflTransGen.tail hs hedge)
          (List.nodup_cons.mpr ⟨hnotin, hnd⟩)
          (by
            intro v hvm
            rcases List.mem_cons.mp hvm with e | e
            · rw [e]; exact ⟨hs, Relation.TransGen.single hedge⟩
            · exact ⟨(hv v e).1, Relation.TransGen.tail (hv v e).2 hedge⟩)
          (by simp only [List.length_cons]; omega)
      refine ⟨n + 1, by omega, out, fin, ?_, ?_⟩
      · simp only [genLoop, hn]; exact hrun
      · rw [hcount, hlen]; omega

/-- C5: if the transition graph over the prefix windows reachable from the all-empty
Prefix is acyclic then, whatever the random draws, the walk of `Generate` returns after a
number of loop iterations that is at most the (finite) number of reachable prefix
windows. -/
theorem C5_generate_terminates_acyclic (c : Markov.Chain) (hac : Acyclic c)
    (rnd : Nat → Nat) :
    {p | Reachable c p}.Finite ∧
    ∃ n, n ≤ Set.ncard {p | Reachable c p} ∧
      ∃ out fin, c.Generate rnd n = Outcome.returned out fin ∧ fin.words.length + 1 = n := by
  refine ⟨reachable_finite c, ?_⟩
  obtain ⟨n, hn, out, fin, hrun, hcount⟩ :=
    genLoop_halts c hac rnd (Set.ncard {p | Reachable c p}) genInit []
      Relation.ReflTransGen.refl List.nodup_nil (by simp) (by simp)
  exact ⟨n, hn, out, fin, hrun, by simpa [genInit] using hcount⟩

theorem chainABC_edge (p q : Prefix)
    (hp : p = [[], []] ∨ p = [[], ascii "a"] ∨ p = [ascii "a", ascii "b"] ∨
      p = [ascii "b", ascii "c"])
    (hedge : Edge chainABC p q) :
    (q = [[], []] ∨ q = [[], ascii "a"] ∨ q = [ascii "a", ascii "b"] ∨
      q = [ascii "b", ascii "c"]) ∧ rankABC p < rankABC q := by
  obtain ⟨w, hw, hs⟩ := hedge
  rcases hp with e | e | e | e <;> subst e
  · have : chainABC.read (Prefix.String [[], []]) = [ascii "a"] := by decide
    rw [this] at hw
    have hw1 : w = ascii "a" := by simpa using hw
    subst hw1
    rw [shift_two] at hs; cases hs
    exact ⟨by decide, by decide⟩
  · have : chainABC.read (Prefix.String [[], ascii "a"]) = [ascii "b"] := by decide
    rw [this] at hw
    have hw1 : w = ascii "b" := by simpa using hw
    subst hw1
    rw [shift_two] at hs; cases hs
    exact ⟨by decide, by decide⟩
  · have : chainABC.read (Prefix.String [ascii "a", ascii "b"]) = [ascii "c"] := by decide
    rw [this] at hw
    have hw1 : w = ascii "c" := by simpa using hw
    subst hw1
    rw [shift_two] at hs; cases hs
    exact ⟨by decide, by decide⟩
  · have : chainABC.read (Prefix.String [ascii "b", ascii "c"]) = [] := by decide
    rw [this] at hw
    simp at hw

theorem chainABC_acyclic : Acyclic chainABC := by
  have hreach : ∀ p, Reachable chainABC p →
      (p = [[], []] ∨ p = [[], ascii "a"] ∨ p = [ascii "a", ascii "b"] ∨
        p = [ascii "b", ascii "c"]) := by
    intro p h
    induction h with
    | refl => left; rfl
    | tail _ hedge ih => exact (chainABC_edge _ _ ih hedge).1
  have hrank : ∀ p q, Reachable chainABC p → Relation.TransGen (Edge chainABC) p q →
      Reachable chainABC q ∧ rankABC p < rankABC q := by
    intro p q hp h
    induction h with
    | single hedge =>
      exact ⟨Relation.ReflTransGen.tail hp hedge, (chainABC_edge _ _ (hreach _ hp) hedge).2⟩
    | tail _ hedge ih =>
      obtain ⟨hb, hlt⟩ := ih
      exact ⟨Relation.ReflTransGen.tail hb hedge,
        lt_trans hlt (chainABC_edge _ _ (hreach _ hb) hedge).2⟩
  intro p hp hcyc
  exact lt_irrefl _ (hrank p p hp hcyc).2

theorem C5_generate_terminates_acyclic_witness :
    Acyclic chainABC ∧
    {p | Reachable chainABC p}.Finite ∧
    ∃ n, n ≤ Set.ncard {p | Reachable chainABC p} ∧
      ∃ out fin, chainABC.Generate (fun i => i) n = Outcome.returned out fin ∧
        fin.words.length + 1 = n :=
  ⟨chainABC_acyclic, C5_generate_terminates_acyclic chainABC chainABC_acyclic (fun i => i)⟩

/-! ## Replaying a corpus whose windows are pairwise distinct -/

theorem filterMap_single (o : Option GoString) (i : Nat) :
    ∀ n, (List.range n).filterMap (fun j => if j = i then o else none)
      = if i < n then o.toList else [] := by
  intro n
  induction n with
  | zero => simp
  | succ n ih =>
    rw [List.range_succ, List.filterMap_append, ih]
    by_cases h1 : i < n
    · have h2 : ¬ n = i := by omega
      have h3 : i < n + 1 := by omega
      simp [h1, h2, h3]
    · by_cases h2 : n = i
      · subst h2
        cases o <;> simp
      · have h3 : ¬ i < n + 1 := by omega
        simp [h1, h2, h3]

theorem observed_unique (ts : List GoString)
    (hinj : ∀ i j, i ≤ ts.length → j ≤ ts.length →
      Prefix.String (windowAt ts i) = Prefix.String (windowAt ts j) → i = j)
    (i : Nat) (hi : i ≤ ts.length) :
    observed ts (Prefix.String (windowAt ts i)) = (ts.get? i).toList := by
  unfold observed
  have hfm : (List.range ts.length).filterMap
      (fun j => if Prefix.String (windowAt ts j) = Prefix.String (windowAt ts i)
        then ts.get? j else none)
      = (List.range ts.length).filterMap (fun j => if j = i then ts.get? i else none) := by
    apply List.filterMap_congr
    intro j hj
    have hjlt : j < ts.length := List.mem_range.mp hj
    by_cases hji : j = i
    · subst hji; simp
    · have : ¬ Prefix.String (windowAt ts j) = Prefix.String (windowAt ts i) :=
        fun e => hji (hinj j i (by omega) hi e)
      simp [hji, this]
  rw [hfm, filterMap_single]
  by_cases h : i < ts.length
  · simp [h]
  · have : ts.get? i = none := by
      rw [List.get?_eq_getElem?]; exact List.getElem?_eq_none (by omega)
    rw [this]
    simp [h]

theorem windowAt_step (ts : List GoString) (i : Nat) (hi : i < ts.length) :
    Prefix.Shift (windowAt ts i) (ts.get ⟨i, hi⟩) = some (windowAt ts (i + 1)) := by
  have hsplit : ts = ts.take i ++ ts.get ⟨i, hi⟩ :: ts.drop (i + 1) := by
    rw [List.get_eq_getElem, ← List.drop_eq_getElem_cons hi, List.take_append_drop]
  have hlen : (ts.take i).length = i := by
    rw [List.length_take]; omega
  have := windowAt_succ (ts.take i) (ts.drop (i + 1)) (ts.get ⟨i, hi⟩)
  rw [← hsplit, hlen] at this
  exact this

theorem walk_replays (c : Markov.Chain) (ts : List GoString) (rnd : Nat → Nat)
    (hread : ∀ i, i ≤ ts.length →
      c.read (Prefix.String (windowAt ts i)) = (ts.get? i).toList) :
    ∀ d i, i + d = ts.length →
      genLoop c rnd (d + 1) ⟨windowAt ts i, ts.take i, i⟩
        = Outcome.returned (Join ts [SP]) ⟨windowAt ts ts.length, ts, ts.length⟩ := by
  intro d
  induction d with
  | zero =>
    intro i hi
    simp only [Nat.add_zero] at hi
    subst hi
    have h0 : c.read (Prefix.String (windowAt ts ts.length)) = [] := by
      rw [hread _ (le_refl _)]
      have : ts.get? ts.length = none := by
        rw [List.get?_eq_getElem?]; exact List.getElem?_eq_none (le_refl _)
      simp [this]
    simp [genLoop, genStep, h0, List.take_length]
  | succ d ih =>
    intro i hi
    have hlt : i < ts.length := by omega
    have h1 : c.read (Prefix.String (windowAt ts i)) = [ts.get ⟨i, hlt⟩] := by
      rw [hread _ (by omega), List.get?_eq_get hlt]; rfl
    have hstep : genStep c rnd ⟨windowAt ts i, ts.take i, i⟩
        = Step.next ⟨windowAt ts (i + 1), ts.take (i + 1), i + 1⟩ := by
      have htake : ts.take i ++ [ts.get ⟨i, hlt⟩] = ts.take (i + 1) := by
        rw [List.take_succ, List.get_eq_getElem, List.getElem?_eq_getElem hlt]; rfl
      have hs := windowAt_step ts i hlt
      rw [List.get_eq_getElem] at hs
      simp only [genStep, h1, Intn, List.length_singleton, Nat.mod_one]
      simp [hs, htake]
    rw [genLoop, hstep]
    exact ih (i + 1) (by omega)

theorem distinctToks_length (n : Nat) : (distinctToks n).length = n := by
  simp [distinctToks]

theorem distinctToks_tokAt (n : Nat) (j : Nat) (hj : j < n) :
    tokAt (distinctToks n) (j : Int) = List.replicate (j + 1) 97 := by
  rw [tokAt_nat]
  simp [distinctToks, List.getD, hj]

theorem key_length (x y : GoString) : (Prefix.String [x, y]).length = x.length + 1 + y.length := by
  simp [Prefix.String, Join]
  omega

theorem distinctToks_keyLen (n i : Nat) (hi : i ≤ n) :
    (Prefix.String (windowAt (distinctToks n) i)).length = if i = 0 then 1 else 2 * i := by
  unfold windowAt
  rw [key_length]
  match i, hi with
  | 0, _ => simp [tokAt]
  | 1, h =>
    have e1 : (((1 : Nat) : Int) - 2) < 0 := by omega
    have e2 : (((1 : Nat) : Int) - 1) = ((0 : Nat) : Int) := by omega
    rw [e2, distinctToks_tokAt n 0 (by omega)]
    simp [tokAt, e1]
  | k + 2, h =>
    have e1 : (((k + 2 : Nat) : Int) - 2) = ((k : Nat) : Int) := by omega
    have e2 : (((k + 2 : Nat) : Int) - 1) = ((k + 1 : Nat) : Int) := by omega
    rw [e1, e2, distinctToks_tokAt n k (by omega), distinctToks_tokAt n (k + 1) (by omega)]
    simp
    omega

theorem distinctToks_inj (n : Nat) (i j : Nat) (hi : i ≤ (distinctToks n).length)
    (hj : j ≤ (distinctToks n).length)
    (h : Prefix.String (windowAt (distinctToks n) i)
      = Prefix.String (windowAt (distinctToks n) j)) : i = j := by
  rw [distinctToks_length] at hi hj
  have hl := congrArg List.length h
  rw [distinctToks_keyLen n i hi, distinctToks_keyLen n j hj] at hl
  split at hl <;> split at hl <;> omega

theorem distinctToks_noSpace (n : Nat) : ∀ t ∈ distinctToks n, SP ∉ t := by
  intro t ht
  simp only [distinctToks, List.mem_map, List.mem_range] at ht
  obtain ⟨i, _, rfl⟩ := ht
  intro h
  have := List.eq_of_mem_replicate h
  simp [SP] at this

/-- C7 (the code has no bound): for every candidate bound `n` there is a Chain, built by
`BuildFromString` from `n + 1` pairwise distinct tokens, on which `Generate` returns
`n + 1` words whatever the random draws. -/
theorem C7_generate_exceeds_any_bound (n : Nat) (rnd : Nat → Nat) :
    ∃ c, (NewChain []).BuildFromString (Join (distinctToks (n + 1)) [SP]) = some c ∧
      ∃ out fin, c.Generate rnd (n + 2) = Outcome.returned out fin ∧
        fin.words = distinctToks (n + 1) ∧ n < fin.words.length := by
  have hne : distinctToks (n + 1) ≠ [] := by
    intro e
    have := congrArg List.length e
    rw [distinctToks_length] at this
    simp at this
  obtain ⟨t1, hbuild, hget, _⟩ :=
    build_spec [] (distinctToks (n + 1)) hne (distinctToks_noSpace (n + 1))
  refine ⟨_, hbuild, ?_⟩
  have hread : ∀ i, i ≤ (distinctToks (n + 1)).length →
      (⟨[], some t1⟩ : Markov.Chain).read (Prefix.String (windowAt (distinctToks (n + 1)) i))
        = ((distinctToks (n + 1)).get? i).toList := by
    intro i hi
    simp only [Chain.read, hget]
    exact observed_unique _ (distinctToks_inj (n + 1)) i hi
  have hrun := walk_replays ⟨[], some t1⟩ (distinctToks (n + 1)) rnd hread
    (distinctToks (n + 1)).length 0 (by simp)
  rw [distinctToks_length] at hrun
  refine ⟨Join (distinctToks (n + 1)) [SP],
    ⟨windowAt (distinctToks (n + 1)) (n + 1), distinctToks (n + 1), n + 1⟩, ?_, rfl,
    by rw [distinctToks_length]; omega⟩
  simpa [Chain.Generate, genInit, windowAt_zero] using hrun

/-! ## UTF-8 decoding and encoding -/

theorem decode_seq2 (b b1 : Nat) (X : List Nat) (h : Seq2 b b1) :
    DecodeRune (b :: b1 :: X) = (b % 32 * 64 + b1 % 64, 2) := by
  obtain ⟨h1, h2, h3, h4⟩ := h
  have hf : firstByte b = some (2, 0x80, 0xBF) := by
    unfold firstByte
    rw [if_neg (by omega), if_pos (by omega)]
  unfold DecodeRune
  simp only [hf, List.length_cons, List.getD_cons_zero]
  rw [if_neg (by omega), if_neg (by omega), if_neg (by omega), if_pos (by omega)]

theorem decode_seq3 (b b1 b2 : Nat) (X : List Nat) (h : Seq3 b b1 b2) :
    DecodeRune (b :: b1 :: b2 :: X) = (b % 16 * 4096 + b1 % 64 * 64 + b2 % 64, 3) := by
  obtain ⟨h1, h2, h3, h4, h5, h6, h7, h8⟩ := h
  have hf : ∃ lo hi, firstByte b = some (3, lo, hi) ∧ lo ≤ b1 ∧ b1 ≤ hi := by
    unfold firstByte
    by_cases e0 : b = 0xE0
    · exact ⟨0xA0, 0xBF, by simp [e0], h5 e0, h4⟩
    · by_cases e1 : b ≤ 0xEC
      · refine ⟨0x80, 0xBF, ?_, h3, h4⟩
        rw [if_neg (by omega), if_neg (by omega), if_neg e0, if_pos e1]
      · by_cases e2 : b = 0xED
        · exact ⟨0x80, 0x9F, by simp [e2], h3, h6 e2⟩
        · refine ⟨0x80, 0xBF, ?_, h3, h4⟩
          rw [if_neg (by omega), if_neg (by omega), if_neg e0, if_neg e1, if_neg e2,
            if_pos (by omega)]
  obtain ⟨lo, hi, hf, hlo, hhi⟩ := hf
  unfold DecodeRune
  simp only [hf, List.length_cons, List.getD_cons_zero, List.getD_cons_succ]
  rw [if_neg (by omega), if_neg (by omega), if_neg (by omega), if_neg (by omega),
    if_neg (by omega), if_pos (by omega)]

theorem decode_seq4 (b b1 b2 b3 : Nat) (X : List Nat) (h : Seq4 b b1 b2 b3) :
    DecodeRune (b :: b1 :: b2 :: b3 :: X)
      = (b % 8 * 262144 + b1 % 64 * 4096 + b2 % 64 * 64 + b3 % 64, 4) := by
  obtain ⟨h1, h2, h3, h4, h5, h6, h7, h8, h9, h10⟩ := h
  have hf : ∃ lo hi, firstByte b = some (4, lo, hi) ∧ lo ≤ b1 ∧ b1 ≤ hi := by
    unfold firstByte
    by_cases e0 : b = 0xF0
    · exact ⟨0x90, 0xBF, by simp [e0], h5 e0, h4⟩
    · by_cases e1 : b ≤ 0xF3
      · refine ⟨0x80, 0xBF, ?_, h3, h4⟩
        rw [if_neg (by omega), if_neg (by omega), if_neg (by omega), if_neg (by omega),
          if_neg (by omega), if_neg (by omega), if_neg e0, if_pos e1]
      · have e2 : b = 0xF4 := by omega
        exact ⟨0x80, 0x8F, by simp [e2], h3, h6 e2⟩
  obtain ⟨lo, hi, hf, hlo, hhi⟩ := hf
  unfold DecodeRune
  simp only [hf, List.length_cons, List.getD_cons_zero, List.getD_cons_succ]
  rw [if_neg (by omega), if_neg (by omega), if_neg (by omega), if_neg (by omega),
    if_neg (by omega), if_neg (by omega), if_neg (by omega)]

theorem encode_seq2 (b b1 : Nat) (h : Seq2 b b1) :
    EncodeRune (b % 32 * 64 + b1 % 64) = [b, b1] := by
  obtain ⟨h1, h2, h3, h4⟩ := h
  unfold EncodeRune
  rw [if_neg (by omega), if_pos (by omega)]
  congr 1
  · omega
  · congr 1; omega

theorem encode_seq3 (b b1 b2 : Nat) (h : Seq3 b b1 b2) :
    EncodeRune (b % 16 * 4096 + b1 % 64 * 64 + b2 % 64) = [b, b1, b2] := by
  obtain ⟨h1, h2, h3, h4, h5, h6, h7, h8⟩ := h
  unfold EncodeRune
  rw [if_neg (by omega), if_neg (by omega), if_neg (by omega), if_pos (by omega)]
  congr 1
  · omega
  · congr 1
    · omega
    · congr 1; omega

theorem encode_seq4 (b b1 b2 b3 : Nat) (h : Seq4 b b1 b2 b3) :
    EncodeRune (b % 8 * 262144 + b1 % 64 * 4096 + b2 % 64 * 64 + b3 % 64)
      = [b, b1, b2, b3] := by
  obtain ⟨h1, h2, h3, h4, h5, h6, h7, h8, h9, h10⟩ := h
  unfold EncodeRune
  rw [if_neg (by omega), if_neg (by omega), if_neg (by omega), if_neg (by omega)]
  congr 1
  · omega
  · congr 1
    · omega
    · congr 1
      · omega
      · congr 1; omega

theorem firstByte_cases (b sz lo hi : Nat) (h : firstByte b = some (sz, lo, hi)) :
    (sz = 2 ∧ 0xC2 ≤ b ∧ b ≤ 0xDF ∧ lo = 0x80 ∧ hi = 0xBF) ∨
    (sz = 3 ∧ 0xE0 ≤ b ∧ b ≤ 0xEF ∧ 0x80 ≤ lo ∧ hi ≤ 0xBF ∧ (b = 0xE0 → lo = 0xA0) ∧
      (b = 0xED → hi = 0x9F)) ∨
    (sz = 4 ∧ 0xF0 ≤ b ∧ b ≤ 0xF4 ∧ 0x80 ≤ lo ∧ hi ≤ 0xBF ∧ (b = 0xF0 → lo = 0x90) ∧
      (b = 0xF4 → hi = 0x8F)) := by
  unfold firstByte at h
  split_ifs at h <;>
    simp only [Option.some.injEq, Prod.mk.injEq] at h <;>
    obtain ⟨rfl, rfl, rfl⟩ := h <;>
    first
    | (left; omega)
    | (right; left; omega)
    | (right; right; omega)

theorem decode_classify (b : Nat) (rest : List Nat) (hb : ¬ b < 0x80)
    (h : ¬ ((DecodeRune (b :: rest)).1 = RuneError ∧ (DecodeRune (b :: rest)).2 = 1)) :
    (∃ b1 X, rest = b1 :: X ∧ Seq2 b b1) ∨
    (∃ b1 b2 X, rest = b1 :: b2 :: X ∧ Seq3 b b1 b2) ∨
    (∃ b1 b2 b3 X, rest = b1 :: b2 :: b3 :: X ∧ Seq4 b b1 b2 b3) := by
  cases hf : firstByte b with
  | none =>
    exfalso
    apply h
    simp [DecodeRune, hb, hf]
  | some v =>
    obtain ⟨sz, lo, hi⟩ := v
    rcases firstByte_cases b sz lo hi hf with ⟨rfl, h1, h2, rfl, rfl⟩ |
      ⟨rfl, h1, h2, h3, h4, h5, h6⟩ | ⟨rfl, h1, h2, h3, h4, h5, h6⟩
    · left
      rcases rest with _ | ⟨b1, X⟩
      · exfalso; apply h; simp [DecodeRune, hb, hf]
      · refine ⟨b1, X, rfl, h1, h2, ?_⟩
        by_contra hc
        apply h
        have : b1 < 0x80 ∨ 0xBF < b1 := by omega
        simp [DecodeRune, hb, hf, this]
    · right; left
      rcases rest with _ | ⟨b1, _ | ⟨b2, X⟩⟩
      · exfalso; apply h; simp [DecodeRune, hb, hf]
      · exfalso; apply h; simp [DecodeRune, hb, hf]
      · refine ⟨b1, b2, X, rfl, ?_⟩
        by_contra hc
        apply h
        by_cases c1 : b1 < lo ∨ hi < b1
        · simp [DecodeRune, hb, hf, c1]
        · have c2 : b2 < 0x80 ∨ 0xBF < b2 := by
            by_contra c2
            apply hc
            refine ⟨h1, h2, by omega, by omega, fun e => ?_, fun e => ?_, by omega, by omega⟩
            · have := h5 e; omega
            · have := h6 e; omega
          simp [DecodeRune, hb, hf, c1, c2]
    · right; right
      rcases rest with _ | ⟨b1, _ | ⟨b2, _ | ⟨b3, X⟩⟩⟩
      · exfalso; apply h; simp [DecodeRune, hb, hf]
      · exfalso; apply h; simp [DecodeRune, hb, hf]
      · exfalso; apply h; simp [DecodeRune, hb, hf]
      · refine ⟨b1, b2, b3, X, rfl, ?_⟩
        by_contra hc
        apply h
        by_cases c1 : b1 < lo ∨ hi < b1
        · simp [DecodeRune, hb, hf, c1]
        · by_cases c2 : b2 < 0x80 ∨ 0xBF < b2
          · simp [DecodeRune, hb, hf, c1, c2]
          · have c3 : b3 < 0x80 ∨ 0xBF < b3 := by
              by_contra c3
              apply hc
              refine ⟨h1, h2, by omega, by omega, fun e => ?_, fun e => ?_, by omega, by omega,
                by omega, by omega⟩
              · have := h5 e; omega
              · have := h6 e; omega
            simp [DecodeRune, hb, hf, c1, c2, c3]


/-! ## String literals: `appendString` against the scanner and `unquote` -/

theorem scan_plain (b : Nat) (Y raw r : List Nat) (h1 : b ≠ 0x22) (h2 : b ≠ 0x5C)
    (h3 : ¬ b < 0x20) (hY : scanStr StrState.text Y = some (raw, r)) :
    scanStr StrState.text (b :: Y) = some (b :: raw, r) := by
  simp [scanStr, h1, h2, h3, hY, keep]

theorem scan_esc2 (e : Nat) (Y raw r : List Nat) (he : e ≠ 0x75)
    (hset : e = 0x62 ∨ e = 0x66 ∨ e = 0x6E ∨ e = 0x72 ∨ e = 0x74 ∨ e = 0x5C ∨ e = 0x2F
      ∨ e = 0x22)
    (hY : scanStr StrState.text Y = some (raw, r)) :
    scanStr StrState.text (0x5C :: e :: Y) = some (0x5C :: e :: raw, r) := by
  simp [scanStr, he, hset, hY, keep]

theorem scan_escu (h1 h2 h3 h4 : Nat) (Y raw r : List Nat)
    (v1 : (hexVal h1).isSome = true) (v2 : (hexVal h2).isSome = true)
    (v3 : (hexVal h3).isSome = true) (v4 : (hexVal h4).isSome = true)
    (hY : scanStr StrState.text Y = some (raw, r)) :
    scanStr StrState.text (0x5C :: 0x75 :: h1 :: h2 :: h3 :: h4 :: Y)
      = some (0x5C :: 0x75 :: h1 :: h2 :: h3 :: h4 :: raw, r) := by
  simp [scanStr, v1, v2, v3, v4, hY, keep]

theorem chunk_safe (b : Nat) (hb : b < 0x80) (hs : htmlSafe b = true) : ChunkOK [b] [b] := by
  simp only [htmlSafe, decide_eq_true_eq] at hs
  refine ⟨by simp, ?_, ?_⟩
  · intro Y raw r hY
    exact scan_plain b Y raw r (by omega) (by omega) (by omega) hY
  · intro Y
    refine ⟨b, Y, rfl, ?_⟩
    unfold unquoteStep
    rw [if_neg (by omega), if_neg (by omega), if_pos hb]

theorem hexVal_hexDigit (n : Nat) (h : n < 16) : hexVal (hexDigit n) = some n := by
  unfold hexDigit hexVal
  by_cases h1 : n < 10
  · rw [if_pos h1, if_pos (by omega)]; congr 1; omega
  · rw [if_neg h1, if_neg (by omega), if_pos (by omega)]; congr 1; omega

theorem chunk_two (e v : Nat) (he : e ≠ 0x75) (hv : unescape e = some v)
    (hset : e = 0x62 ∨ e = 0x66 ∨ e = 0x6E ∨ e = 0x72 ∨ e = 0x74 ∨ e = 0x5C ∨ e = 0x2F
      ∨ e = 0x22) :
    ChunkOK [0x5C, e] [v] := by
  refine ⟨by simp, ?_, ?_⟩
  · intro Y raw r hY
    exact scan_esc2 e Y raw r he hset hY
  · intro Y
    refine ⟨0x5C, e :: Y, rfl, ?_⟩
    simp [unquoteStep, he, hv]

theorem chunk_u (h1 h2 h3 h4 a b c d rr : Nat)
    (v1 : hexVal h1 = some a) (v2 : hexVal h2 = some b) (v3 : hexVal h3 = some c)
    (v4 : hexVal h4 = some d) (hrr : a * 4096 + b * 256 + c * 16 + d = rr)
    (hns : ¬ (0xD800 ≤ rr ∧ rr < 0xE000)) :
    ChunkOK [0x5C, 0x75, h1, h2, h3, h4] (EncodeRune rr) := by
  refine ⟨by simp, ?_, ?_⟩
  · intro Y raw r hY
    exact scan_escu h1 h2 h3 h4 Y raw r (by simp [v1]) (by simp [v2]) (by simp [v3])
      (by simp [v4]) hY
  · intro Y
    refine ⟨0x5C, 0x75 :: h1 :: h2 :: h3 :: h4 :: Y, rfl, ?_⟩
    simp [unquoteStep, hex4, v1, v2, v3, v4, hrr, hns]

theorem chunk_escape (b : Nat) (hb : b < 0x80) (hs : htmlSafe b = false) :
    ChunkOK (escapeByte b) [b] := by
  unfold escapeByte
  by_cases c1 : b = 0x5C ∨ b = 0x22
  · rw [if_pos c1]
    rcases c1 with rfl | rfl
    · exact chunk_two 0x5C 0x5C (by decide) (by decide) (by decide)
    · exact chunk_two 0x22 0x22 (by decide) (by decide) (by decide)
  · rw [if_neg c1]
    by_cases c2 : b = 0x08
    · rw [if_pos c2, c2]; exact chunk_two 0x62 0x08 (by decide) (by decide) (by decide)
    · rw [if_neg c2]
      by_cases c3 : b = 0x0C
      · rw [if_pos c3, c3]; exact chunk_two 0x66 0x0C (by decide) (by decide) (by decide)
      · rw [if_neg c3]
        by_cases c4 : b = 0x0A
        · rw [if_pos c4, c4]; exact chunk_two 0x6E 0x0A (by decide) (by decide) (by decide)
        · rw [if_neg c4]
          by_cases c5 : b = 0x0D
          · rw [if_pos c5, c5]; exact chunk_two 0x72 0x0D (by decide) (by decide) (by decide)
          · rw [if_neg c5]
            by_cases c6 : b = 0x09
            · rw [if_pos c6, c6]; exact chunk_two 0x74 0x09 (by decide) (by decide) (by decide)
            · rw [if_neg c6]
              have henc : EncodeRune b = [b] := by
                unfold EncodeRune; rw [if_pos (by omega)]
              rw [← henc]
              exact chunk_u 0x30 0x30 (hexDigit (b / 16)) (hexDigit (b % 16)) 0 0 (b / 16)
                (b % 16) b (by decide) (by decide) (hexVal_hexDigit _ (by omega))
                (hexVal_hexDigit _ (Nat.mod_lt _ (by decide))) (by omega) (by omega)

theorem chunk_seq2 (b b1 : Nat) (h : Seq2 b b1) : ChunkOK [b, b1] [b, b1] := by
  have h' := h
  obtain ⟨h1, h2, h3, h4⟩ := h'
  refine ⟨by simp, ?_, ?_⟩
  · intro Y raw r hY
    exact scan_plain b _ _ r (by omega) (by omega) (by omega)
      (scan_plain b1 Y raw r (by omega) (by omega) (by omega) hY)
  · intro Y
    refine ⟨b, b1 :: Y, rfl, ?_⟩
    unfold unquoteStep
    rw [if_neg (by omega), if_neg (by omega), if_neg (by omega), decode_seq2 b b1 Y h,
      encode_seq2 b b1 h]
    rfl

theorem chunk_seq3 (b b1 b2 : Nat) (h : Seq3 b b1 b2) : ChunkOK [b, b1, b2] [b, b1, b2] := by
  have h' := h
  obtain ⟨h1, h2, h3, h4, h5, h6, h7, h8⟩ := h'
  refine ⟨by simp, ?_, ?_⟩
  · intro Y raw r hY
    exact scan_plain b _ _ r (by omega) (by omega) (by omega)
      (scan_plain b1 _ _ r (by omega) (by omega) (by omega)
        (scan_plain b2 Y raw r (by omega) (by omega) (by omega) hY))
  · intro Y
    refine ⟨b, b1 :: b2 :: Y, rfl, ?_⟩
    unfold unquoteStep
    rw [if_neg (by omega), if_neg (by omega), if_neg (by omega), decode_seq3 b b1 b2 Y h,
      encode_seq3 b b1 b2 h]
    rfl

theorem chunk_seq4 (b b1 b2 b3 : Nat) (h : Seq4 b b1 b2 b3) :
    ChunkOK [b, b1, b2, b3] [b, b1, b2, b3] := by
  have h' := h
  obtain ⟨h1, h2, h3, h4, h5, h6, h7, h8, h9, h10⟩ := h'
  refine ⟨by simp, ?_, ?_⟩
  · intro Y raw r hY
    exact scan_plain b _ _ r (by omega) (by omega) (by omega)
      (scan_plain b1 _ _ r (by omega) (by omega) (by omega)
        (scan_plain b2 _ _ r (by omega) (by omega) (by omega)
          (scan_plain b3 Y raw r (by omega) (by omega) (by omega) hY)))
  · intro Y
    refine ⟨b, b1 :: b2 :: b3 :: Y, rfl, ?_⟩
    unfold unquoteStep
    rw [if_neg (by omega), if_neg (by omega), if_neg (by omega), decode_seq4 b b1 b2 b3 Y h,
      encode_seq4 b b1 b2 b3 h]
    rfl

theorem chunk_sep (r : Nat) (hr : r = 0x2028 ∨ r = 0x2029) :
    ChunkOK [0x5C, 0x75, 0x32, 0x30, 0x32, hexDigit (r % 16)] (EncodeRune r) := by
  refine chunk_u 0x32 0x30 0x32 (hexDigit (r % 16)) 2 0 2 (r % 16) r (by decide) (by decide)
    (by decide) (hexVal_hexDigit _ (Nat.mod_lt _ (by decide))) ?_ ?_
  · rcases hr with rfl | rfl <;> rfl
  · rcases hr with rfl | rfl <;> decide

set_option maxHeartbeats 1000000 in
theorem escapeStep_ok (b : Nat) (rest : List Nat)
    (hv : ¬ ((DecodeRune (b :: rest)).1 = RuneError ∧ (DecodeRune (b :: rest)).2 = 1)) :
    ChunkOK (escapeStep b rest).1 ((b :: rest).take (DecodeRune (b :: rest)).2) ∧
    (escapeStep b rest).2 = (b :: rest).drop (DecodeRune (b :: rest)).2 ∧
    1 ≤ (DecodeRune (b :: rest)).2 := by
  by_cases hb : b < 0x80
  · have hd : DecodeRune (b :: rest) = (b, 1) := by simp [DecodeRune, hb]
    rw [hd]
    unfold escapeStep
    rw [if_pos hb]
    refine ⟨?_, rfl, le_refl _⟩
    by_cases hs : htmlSafe b = true
    · simpa [hs] using chunk_safe b hb hs
    · have hs' : htmlSafe b = false := by simpa using hs
      simpa [hs'] using chunk_escape b hb hs'
  · rcases decode_classify b rest hb hv with ⟨b1, X, rfl, h⟩ | ⟨b1, b2, X, rfl, h⟩ |
      ⟨b1, b2, b3, X, rfl, h⟩
    · have h4 : DecodeRune ((b :: b1 :: X).take 4) = (b % 32 * 64 + b1 % 64, 2) := by
        simpa using decode_seq2 b b1 (X.take 2) h
      unfold escapeStep
      rw [decode_seq2 b b1 X h, h4, if_neg hb]
      obtain ⟨h1, h2, h3, h5⟩ := h
      simp only []
      rw [if_neg (fun hc => absurd hc.2 (by decide)), if_neg (by omega)]
      exact ⟨by simpa using chunk_seq2 b b1 ⟨h1, h2, h3, h5⟩, by simp, by omega⟩
    · have h4 : DecodeRune ((b :: b1 :: b2 :: X).take 4)
          = (b % 16 * 4096 + b1 % 64 * 64 + b2 % 64, 3) := by
        simpa using decode_seq3 b b1 b2 (X.take 1) h
      unfold escapeStep
      rw [decode_seq3 b b1 b2 X h, h4, if_neg hb]
      simp only []
      rw [if_neg (fun hc => absurd hc.2 (by decide))]
      by_cases hsep : b % 16 * 4096 + b1 % 64 * 64 + b2 % 64 = 0x2028 ∨
          b % 16 * 4096 + b1 % 64 * 64 + b2 % 64 = 0x2029
      · rw [if_pos hsep]
        refine ⟨?_, by simp, by omega⟩
        have := chunk_sep _ hsep
        rw [encode_seq3 b b1 b2 h] at this
        simpa using this
      · rw [if_neg hsep]
        exact ⟨by simpa using chunk_seq3 b b1 b2 h, by simp, by omega⟩
    · have h4 : DecodeRune ((b :: b1 :: b2 :: b3 :: X).take 4)
          = (b % 8 * 262144 + b1 % 64 * 4096 + b2 % 64 * 64 + b3 % 64, 4) := by
        simpa using decode_seq4 b b1 b2 b3 [] h
      unfold escapeStep
      rw [decode_seq4 b b1 b2 b3 X h, h4, if_neg hb]
      have h' := h
      obtain ⟨h1, h2, h3, h5, h6, h7, h8, h9, h10, h11⟩ := h'
      simp only []
      rw [if_neg (fun hc => absurd hc.2 (by decide)), if_neg (by omega)]
      exact ⟨by simpa using chunk_seq4 b b1 b2 b3 h, by simp, by omega⟩

theorem validN_cons (fuel b : Nat) (rest : List Nat) (h : validN (fuel + 1) (b :: rest) = true) :
    ¬ ((DecodeRune (b :: rest)).1 = RuneError ∧ (DecodeRune (b :: rest)).2 = 1) ∧
    validN fuel ((b :: rest).drop (DecodeRune (b :: rest)).2) = true := by
  unfold validN at h
  by_cases hbad : (DecodeRune (b :: rest)).1 = RuneError ∧ (DecodeRune (b :: rest)).2 = 1
  · rw [if_pos hbad] at h; cases h
  · rw [if_neg hbad] at h; exact ⟨hbad, h⟩

theorem validN_zero (s : GoString) (h : validN 0 s = true) : s = [] := by
  cases s with
  | nil => rfl
  | cons b rest => simp [validN] at h

theorem escape_scan (fuel : Nat) :
    ∀ (s : GoString), validN fuel s = true → ∀ R,
      scanStr StrState.text (escapeN fuel s ++ 0x22 :: R) = some (escapeN fuel s, R) := by
  induction fuel with
  | zero =>
    intro s hs R
    simp [validN_zero s hs, escapeN, scanStr]
  | succ fuel ih =>
    intro s hs R
    cases s with
    | nil => simp [escapeN, scanStr]
    | cons b rest =>
      obtain ⟨hbad, hrest⟩ := validN_cons fuel b rest hs
      obtain ⟨⟨_, hscan, _⟩, htail, _⟩ := escapeStep_ok b rest hbad
      simp only [escapeN, List.append_assoc]
      rw [htail]
      exact hscan _ _ _ (ih _ hrest R)

theorem escape_unquote (fuel : Nat) :
    ∀ (s : GoString), validN fuel s = true → ∀ f2, (escapeN fuel s).length ≤ f2 →
      unquoteN f2 (escapeN fuel s) = some s := by
  induction fuel with
  | zero =>
    intro s hs f2 _
    rw [validN_zero s hs]
    simp [escapeN, unquoteN]
  | succ fuel ih =>
    intro s hs f2 hf
    cases s with
    | nil => simp [escapeN, unquoteN]
    | cons b rest =>
      obtain ⟨hbad, hrest⟩ := validN_cons fuel b rest hs
      obtain ⟨⟨hne, _, hunq⟩, htail, _⟩ := escapeStep_ok b rest hbad
      simp only [escapeN] at hf ⊢
      rw [htail] at hf ⊢
      obtain ⟨c, r1, hcr, hstep⟩ :=
        hunq (escapeN fuel ((b :: rest).drop (DecodeRune (b :: rest)).2))
      have hlen : 1 ≤ (escapeStep b rest).1.length := by
        cases hc : (escapeStep b rest).1 with
        | nil => exact absurd hc hne
        | cons _ _ => simp
      rw [List.length_append] at hf
      cases f2 with
      | zero => omega
      | succ g =>
        rw [hcr, unquoteN, hstep]
        simp only []
        rw [ih _ hrest g (by omega)]
        simp

theorem parseString_quote (s : GoString) (hs : ValidString s = true) (R : List Nat) :
    parseString (escapeN s.length s ++ 0x22 :: R) = some (s, R) := by
  unfold parseString scanString
  rw [escape_scan s.length s hs R]
  simp only [unquote]
  rw [escape_unquote s.length s hs _ (le_refl _)]


/-! ## Parsing what `Marshal` writes -/

theorem skipWs_cons (b : Nat) (r : List Nat) (h : isWs b = false) : skipWs (b :: r) = b :: r := by
  simp [skipWs, List.dropWhile, h]

theorem quote_eq (s : GoString) (R : List Nat) :
    quote s ++ R = 0x22 :: (escapeN s.length s ++ 0x22 :: R) := by
  simp [quote]

theorem quote_length (s : GoString) : 2 ≤ (quote s).length := by
  simp [quote]

theorem parseValue_quote (s : GoString) (hs : ValidString s = true) (R : List Nat) (f : Nat) :
    parseValue (f + 1) (quote s ++ R) = some (Json.str s, R) := by
  rw [quote_eq, parseValue, skipWs_cons 0x22 _ (by decide)]
  simp only [if_true]
  rw [parseString_quote s hs R]

theorem parseElems_quotes (xs : List GoString) :
    ∀ (x : GoString) (f : Nat) (R : List Nat),
      ValidString x = true → (∀ y ∈ xs, ValidString y = true) →
      (quote x ++ encTail 0x5D (xs.map quote)).length < f →
      parseElems f (quote x ++ encTail 0x5D (xs.map quote) ++ R)
        = some ((x :: xs).map Json.str, R) := by
  induction xs with
  | nil =>
    intro x f R hx _ hf
    cases f with
    | zero => omega
    | succ f =>
      have h2 := quote_length x
      simp only [List.map_nil, encTail, List.length_append, List.length_singleton] at hf
      obtain ⟨g, rfl⟩ : ∃ g, f = g + 1 := ⟨f - 1, by omega⟩
      rw [parseElems]
      simp only [List.map_nil, encTail, List.append_assoc]
      rw [parseValue_quote x hx _ g]
      simp only [List.singleton_append]
      rw [skipWs_cons 0x5D _ (by decide)]
      simp
  | cons y ys ih =>
    intro x f R hx hys hf
    cases f with
    | zero => omega
    | succ f =>
      have h2 := quote_length x
      simp only [List.map_cons, encTail, List.length_append, List.length_singleton,
        List.length_cons, List.length_nil] at hf
      obtain ⟨g, rfl⟩ : ∃ g, f = g + 1 := ⟨f - 1, by omega⟩
      rw [parseElems]
      simp only [List.map_cons, encTail, List.append_assoc]
      rw [parseValue_quote x hx _ g]
      simp only [List.singleton_append, List.cons_append, List.nil_append]
      rw [skipWs_cons 0x2C _ (by decide)]
      simp only [if_true]
      have := ih y (g + 1) R (hys y (by simp)) (fun z hz => hys z (by simp [hz]))
        (by simp only [List.length_append]; omega)
      simp only [List.append_assoc] at this
      rw [this]
      simp

theorem storeElems_strs (v : List GoString) : storeElems (v.map Json.str) = some v := by
  induction v with
  | nil => rfl
  | cons x xs ih => simp [storeElems, storeString, ih]

theorem storeSlice_sliceJson (isNil : Bool) (v : List GoString) :
    storeSlice (sliceJson isNil v) = some v := by
  unfold sliceJson
  by_cases h : v = [] ∧ isNil = true
  · rw [if_pos h]; simp [storeSlice, h.1]
  · rw [if_neg h]; simp [storeSlice, storeElems_strs]

theorem parseValue_slice (isNil : Bool) (v : List GoString) (f : Nat) (R : List Nat)
    (hv : ∀ y ∈ v, ValidString y = true) (hf : (encSlice isNil v).length < f) :
    parseValue f (encSlice isNil v ++ R) = some (sliceJson isNil v, R) := by
  unfold encSlice sliceJson at *
  by_cases h : v = [] ∧ isNil = true
  · rw [if_pos h] at hf ⊢
    rw [if_pos h]
    obtain ⟨g, rfl⟩ : ∃ g, f = g + 1 := ⟨f - 1, by simp at hf; omega⟩
    rw [parseValue]
    simp only [List.cons_append, List.nil_append]
    rw [skipWs_cons 0x6E _ (by decide)]
    simp [ascii]
  · rw [if_neg h] at hf ⊢
    rw [if_neg h]
    cases v with
    | nil =>
      obtain ⟨g, rfl⟩ : ∃ g, f = g + 1 := ⟨f - 1, by simp [encSeq] at hf; omega⟩
      rw [parseValue]
      simp only [List.map_nil, encSeq, List.cons_append, List.nil_append]
      rw [skipWs_cons 0x5B _ (by decide)]
      simp only [if_neg (show ¬ (0x5B : Nat) = 0x22 by decide),
        if_neg (show ¬ (0x5B : Nat) = 0x7B by decide), if_true]
      rw [skipWs_cons 0x5D _ (by decide)]
      simp
    | cons x xs =>
      simp only [List.map_cons, encSeq, List.length_append, List.length_singleton] at hf
      obtain ⟨g, rfl⟩ : ∃ g, f = g + 1 := ⟨f - 1, by omega⟩
      rw [parseValue]
      simp only [List.map_cons, encSeq, List.append_assoc, List.singleton_append,
        List.cons_append, List.nil_append]
      rw [skipWs_cons 0x5B _ (by decide)]
      simp only [if_neg (show ¬ (0x5B : Nat) = 0x22 by decide),
        if_neg (show ¬ (0x5B : Nat) = 0x7B by decide), if_true]
      have hq : quote x ++ (encTail 0x5D (xs.map quote) ++ R)
          = 0x22 :: (escapeN x.length x ++ 0x22 :: (encTail 0x5D (xs.map quote) ++ R)) :=
        quote_eq x _
      rw [hq, skipWs_cons 0x22 _ (by decide)]
      simp only [if_neg (show ¬ (0x22 : Nat) = 0x5D by decide)]
      rw [← hq]
      have := parseElems_quotes xs x g R (hv x (by simp)) (fun z hz => hv z (by simp [hz]))
        (by simp only [List.length_append]; omega)
      simp only [List.append_assoc] at this
      rw [this]
      simp


theorem parseMembers_items (nl : GoString → Bool) (val : GoString → List GoString)
    (ks : List GoString) :
    ∀ (k : GoString) (f : Nat) (R : List Nat),
      ValidString k = true → (∀ y ∈ val k, ValidString y = true) →
      (∀ k1 ∈ ks, ValidString k1 = true ∧ ∀ y ∈ val k1, ValidString y = true) →
      (encMember nl val k ++ encTail 0x7D (ks.map (encMember nl val))).length < f →
      parseMembers f (encMember nl val k ++ encTail 0x7D (ks.map (encMember nl val)) ++ R)
        = some ((k :: ks).map (fun k => (k, sliceJson (nl k) (val k))), R) := by
  induction ks with
  | nil =>
    intro k f R hk hv _ hf
    have h2 := quote_length k
    simp only [encMember, List.map_nil, encTail, List.length_append, List.length_singleton]
      at hf
    obtain ⟨g, rfl⟩ : ∃ g, f = g + 1 := ⟨f - 1, by omega⟩
    rw [parseMembers]
    simp only [encMember, List.map_nil, encTail, List.append_assoc, List.singleton_append]
    rw [quote_eq, skipWs_cons 0x22 _ (by decide)]
    simp only [if_true]
    rw [parseString_quote k hk]
    simp only [List.cons_append, List.append_assoc, List.nil_append, List.singleton_append]
    rw [skipWs_cons 0x3A _ (by decide)]
    simp only [if_true]
    have := parseValue_slice (nl k) (val k) g (0x7D :: R) hv (by omega)
    rw [this]
    simp only []
    rw [skipWs_cons 0x7D _ (by decide)]
    simp
  | cons k1 ks ih =>
    intro k f R hk hv hks hf
    have h2 := quote_length k
    simp only [encMember, List.map_cons, encTail, List.length_append, List.length_singleton]
      at hf
    obtain ⟨g, rfl⟩ : ∃ g, f = g + 1 := ⟨f - 1, by omega⟩
    rw [parseMembers]
    simp only [encMember, List.map_cons, encTail, List.append_assoc, List.singleton_append]
    rw [quote_eq, skipWs_cons 0x22 _ (by decide)]
    simp only [if_true]
    rw [parseString_quote k hk]
    simp only [List.cons_append, List.append_assoc, List.nil_append, List.singleton_append]
    rw [skipWs_cons 0x3A _ (by decide)]
    simp only [if_true]
    have := parseValue_slice (nl k) (val k) g
      (0x2C :: (quote k1 ++ (0x3A :: (encSlice (nl k1) (val k1) ++
        (encTail 0x7D (ks.map (encMember nl val)) ++ R))))) hv (by omega)
    rw [this]
    simp only []
    rw [skipWs_cons 0x2C _ (by decide)]
    simp only [if_true]
    have hrec := ih k1 g R (hks k1 (by simp)).1 (hks k1 (by simp)).2
      (fun z hz => hks z (by simp [hz]))
      (by simp only [encMember, List.length_append, List.length_singleton]; omega)
    simp only [encMember, List.append_assoc, List.singleton_append, List.cons_append,
      List.nil_append] at hrec
    rw [hrec]
    simp

theorem parseValue_map (nl : GoString → Bool) (val : GoString → List GoString)
    (ks : List GoString) (f : Nat) (R : List Nat)
    (hks : ∀ k1 ∈ ks, ValidString k1 = true ∧ ∀ y ∈ val k1, ValidString y = true)
    (hf : (encSeq 0x7B 0x7D (ks.map (encMember nl val))).length < f) :
    parseValue f (encSeq 0x7B 0x7D (ks.map (encMember nl val)) ++ R)
      = some (Json.obj (ks.map (fun k => (k, sliceJson (nl k) (val k)))), R) := by
  cases ks with
  | nil =>
    obtain ⟨g, rfl⟩ : ∃ g, f = g + 1 := ⟨f - 1, by simp [encSeq] at hf; omega⟩
    rw [parseValue]
    simp only [List.map_nil, encSeq, List.cons_append, List.nil_append]
    rw [skipWs_cons 0x7B _ (by decide)]
    simp only [if_neg (show ¬ (0x7B : Nat) = 0x22 by decide), if_true]
    rw [skipWs_cons 0x7D _ (by decide)]
    simp
  | cons k ks =>
    simp only [List.map_cons, encSeq, List.length_append, List.length_singleton] at hf
    obtain ⟨g, rfl⟩ : ∃ g, f = g + 1 := ⟨f - 1, by omega⟩
    rw [parseValue]
    simp only [List.map_cons, encSeq, List.append_assoc, List.singleton_append,
      List.cons_append, List.nil_append]
    rw [skipWs_cons 0x7B _ (by decide)]
    simp only [if_neg (show ¬ (0x7B : Nat) = 0x22 by decide), if_true]
    have hq : encMember nl val k ++ (encTail 0x7D (ks.map (encMember nl val)) ++ R)
        = 0x22 :: (escapeN k.length k ++ 0x22 :: (0x3A :: (encSlice (nl k) (val k) ++
            (encTail 0x7D (ks.map (encMember nl val)) ++ R)))) := by
      simp [encMember, quote]
    rw [hq, skipWs_cons 0x22 _ (by decide)]
    simp only [if_neg (show ¬ (0x22 : Nat) = 0x7D by decide)]
    rw [← hq]
    have := parseMembers_items nl val ks k g R (hks k (by simp)).1 (hks k (by simp)).2
      (fun z hz => hks z (by simp [hz])) (by simp only [List.length_append]; omega)
    simp only [List.append_assoc] at this
    rw [this]
    simp


/-! ## Storing the parsed value into a Chain -/

theorem get_of_not_mem_keys (t : Table) (k : GoString) (h : k ∉ t.keys) : t.get k = [] := by
  induction t with
  | nil => rfl
  | cons e rest ih =>
    obtain ⟨k0, v0⟩ := e
    simp only [Table.keys, List.map_cons, List.mem_cons, not_or] at h
    have hne : ¬ k0 = k := fun e => h.1 e.symm
    simp only [Table.get, hne, if_false]
    exact ih h.2

theorem get_mem_entry (t : Table) (k w : GoString) (h : w ∈ t.get k) :
    ∃ e ∈ t, e.1 = k ∧ w ∈ e.2 := by
  induction t with
  | nil => simp [Table.get] at h
  | cons e rest ih =>
    obtain ⟨k0, v0⟩ := e
    simp only [Table.get] at h
    split at h
    · rename_i hk
      exact ⟨(k0, v0), by simp, hk, h⟩
    · obtain ⟨e, he, h1, h2⟩ := ih h
      exact ⟨e, by simp [he], h1, h2⟩

theorem mem_keys_entry (t : Table) (k : GoString) (h : k ∈ t.keys) : ∃ e ∈ t, e.1 = k := by
  simp only [Table.keys, List.mem_map] at h
  exact h

theorem storeMembers_fold (nl : GoString → Bool) (val : GoString → List GoString)
    (ks : List GoString) :
    ∀ t0 : Table, storeMembers t0 (ks.map (fun k => (k, sliceJson (nl k) (val k))))
      = some (ks.foldl (fun acc k => acc.set k (val k)) t0) := by
  induction ks with
  | nil => intro t0; rfl
  | cons k ks ih =>
    intro t0
    simp only [List.map_cons, storeMembers, storeSlice_sliceJson, List.foldl_cons]
    exact ih _

theorem fold_get (val : GoString → List GoString) (ks : List GoString) :
    ∀ (t0 : Table) (k : GoString),
      (ks.foldl (fun acc k => acc.set k (val k)) t0).get k
        = if k ∈ ks then val k else t0.get k := by
  induction ks with
  | nil => intro t0 k; simp
  | cons k1 ks ih =>
    intro t0 k
    rw [List.foldl_cons, ih, get_set]
    by_cases h1 : k ∈ ks
    · simp [h1]
    · by_cases h2 : k1 = k
      · subst h2; simp
      · have : ¬ k = k1 := fun e => h2 e.symm
        simp [h1, h2, this]

theorem fold_keys (val : GoString → List GoString) (ks : List GoString) :
    ∀ (t0 : Table) (k : GoString),
      k ∈ (ks.foldl (fun acc k => acc.set k (val k)) t0).keys ↔ k ∈ ks ∨ k ∈ t0.keys := by
  induction ks with
  | nil => intro t0 k; simp
  | cons k1 ks ih =>
    intro t0 k
    rw [List.foldl_cons, ih, mem_keys_set]
    simp only [List.mem_cons]
    tauto

theorem mem_sortedKeys (t : Table) (k : GoString) : k ∈ sortedKeys t ↔ k ∈ t.keys := by
  unfold sortedKeys
  rw [(List.perm_insertionSort _ _).mem_iff, List.mem_dedup]


/-! ## Round trip through `Encode` and `Decode` -/

theorem parseValue_null (f : Nat) (R : List Nat) :
    parseValue (f + 1) (ascii "null" ++ R) = some (Json.null, R) := by
  have e : ascii "null" ++ R = 0x6E :: 0x75 :: 0x6C :: 0x6C :: R := by
    simp [ascii]
  rw [e, parseValue, skipWs_cons 0x6E _ (by decide)]
  simp [ascii]

theorem parse_top (nick : GoString) (hn : ValidString nick = true) (M : List Nat) (MJ : Json)
    (f : Nat) (hM : parseValue (f + 1) (M ++ [0x7D]) = some (MJ, [0x7D])) :
    parseValue (f + 4)
        (ascii "\x7b\"Nick\":" ++ quote nick ++ ascii ",\"Chain\":" ++ M ++ ascii "\x7d")
      = some (Json.obj [(ascii "Nick", Json.str nick), (ascii "Chain", MJ)], []) := by
  have e1 : ascii "\x7b\"Nick\":" = 0x7B :: (quote (ascii "Nick") ++ [0x3A]) := by decide
  have e2 : ascii ",\"Chain\":" = 0x2C :: (quote (ascii "Chain") ++ [0x3A]) := by decide
  have e3 : ascii "\x7d" = [0x7D] := by decide
  have v1 : ValidString (ascii "Nick") = true := by decide
  have v2 : ValidString (ascii "Chain") = true := by decide
  rw [e1, e2, e3, parseValue]
  simp only [List.cons_append, List.append_assoc, List.nil_append, List.singleton_append]
  rw [skipWs_cons 0x7B _ (by decide)]
  simp only [if_neg (show ¬ (0x7B : Nat) = 0x22 by decide), if_true]
  rw [quote_eq, skipWs_cons 0x22 _ (by decide)]
  simp only [if_neg (show ¬ (0x22 : Nat) = 0x7D by decide)]
  rw [parseMembers, skipWs_cons 0x22 _ (by decide)]
  simp only [if_true]
  rw [parseString_quote _ v1]
  simp only []
  rw [skipWs_cons 0x3A _ (by decide)]
  simp only [if_true]
  rw [parseValue_quote nick hn _ (f + 1)]
  simp only []
  rw [skipWs_cons 0x2C _ (by decide)]
  simp only [if_true]
  rw [parseMembers, quote_eq, skipWs_cons 0x22 _ (by decide)]
  simp only [if_true]
  rw [parseString_quote _ v2]
  simp only []
  rw [skipWs_cons 0x3A _ (by decide)]
  simp only [if_true]
  rw [hM]
  simp only []
  rw [skipWs_cons 0x7D _ (by decide)]
  simp

theorem parseJson_of_parseValue (data : List Nat) (f : Nat) (v : Json)
    (hf : 2 * data.length + 2 = f) (h : parseValue f data = some (v, [])) :
    parseJson data = some v := by
  unfold parseJson
  rw [hf, h]
  simp [skipWs]

theorem storeFields_top (nick : GoString) (MJ : Json) (m : Option Table)
    (hm : storeMap none MJ = some m) :
    storeFields ⟨[], none⟩ [(ascii "Nick", Json.str nick), (ascii "Chain", MJ)]
      = some ⟨nick, m⟩ := by
  have f1 : foldKey (ascii "Nick") = ascii "NICK" := by decide
  have f2 : ¬ ascii "CHAIN" = ascii "NICK" := by decide
  have f3 : foldKey (ascii "Chain") = ascii "CHAIN" := by decide
  simp only [storeFields, f1, f2, f3, if_true, if_false, storeString, hm]

theorem top_length (q M : List Nat) :
    (ascii "\x7b\"Nick\":" ++ q ++ ascii ",\"Chain\":" ++ M ++ ascii "\x7d").length
      = q.length + M.length + 18 := by
  simp [ascii]
  omega

theorem roundtrip_valid (c : Markov.Chain) (nilSlice : GoString → Bool)
    (hv : c.ValidUTF8) :
    ∃ enc c1, c.Encode nilSlice = some enc ∧ Decode enc = Decoded.chain c1 ∧
      c1.Nick = c.Nick ∧ (c1.Chain = none ↔ c.Chain = none) ∧
      (∀ k, c1.hasKey k ↔ c.hasKey k) ∧ (∀ k, c1.read k = c.read k) := by
  obtain ⟨nick, m⟩ := c
  obtain ⟨hn, ht⟩ := hv
  simp only at hn ht
  cases m with
  | none =>
    refine ⟨_, ⟨nick, none⟩, rfl, ?_, rfl, Iff.rfl, fun k => Iff.rfl, fun k => rfl⟩
    have hL := top_length (quote nick) (ascii "null")
    have hp := parse_top nick hn (ascii "null") Json.null
      (2 * (ascii "\x7b\"Nick\":" ++ quote nick ++ ascii ",\"Chain\":" ++ ascii "null"
        ++ ascii "\x7d").length + 2 - 4)
      (parseValue_null _ _)
    have hj := parseJson_of_parseValue _ _ _ (by omega) hp
    simp only [Decode, Unmarshal, hj]
    rw [storeFields_top nick Json.null none rfl]
  | some t =>
    have hks : ∀ k1 ∈ sortedKeys t,
        ValidString k1 = true ∧ ∀ y ∈ t.get k1, ValidString y = true := by
      intro k1 hk1
      constructor
      · obtain ⟨e, he, rfl⟩ := mem_keys_entry t k1 ((mem_sortedKeys t k1).mp hk1)
        exact (ht t rfl e he).1
      · intro y hy
        obtain ⟨e, he, _, hw⟩ := get_mem_entry t k1 y hy
        exact (ht t rfl e he).2 y hw
    have hmap : encMap nilSlice t
        = encSeq 0x7B 0x7D ((sortedKeys t).map (encMember nilSlice t.get)) := rfl
    have hL := top_length (quote nick) (encMap nilSlice t)
    have hp := parse_top nick hn (encMap nilSlice t)
      (Json.obj ((sortedKeys t).map (fun k => (k, sliceJson (nilSlice k) (t.get k)))))
      (2 * (ascii "\x7b\"Nick\":" ++ quote nick ++ ascii ",\"Chain\":" ++ encMap nilSlice t
        ++ ascii "\x7d").length + 2 - 4)
      (by
        rw [hmap] at hL ⊢
        exact parseValue_map nilSlice t.get (sortedKeys t) _ [0x7D] hks (by omega))
    have hj := parseJson_of_parseValue _ _ _ (by omega) hp
    refine ⟨_, ⟨nick, some ((sortedKeys t).foldl (fun acc k => acc.set k (t.get k)) [])⟩,
      rfl, ?_, rfl, by simp, ?_, ?_⟩
    · simp only [Decode, Unmarshal, hj]
      rw [storeFields_top nick _ (some ((sortedKeys t).foldl
        (fun acc k => acc.set k (t.get k)) []))
        (by simp [storeMap, storeMembers_fold])]
    · intro k
      simp only [Chain.hasKey, fold_keys, mem_sortedKeys]
      simp [Table.keys]
    · intro k
      simp only [Chain.read, fold_get, mem_sortedKeys]
      by_cases hk : k ∈ t.keys
      · simp [hk]
      · simp [hk, get_of_not_mem_keys t k hk, Table.get]

/-- C10 (as stated, fails): the identity made of the single byte `0xFF` is not well-formed
UTF-8; `Encode` writes it as the escape of U+FFFD and `Decode` returns the three bytes of
U+FFFD, a different identity. -/
theorem C10_roundtrip_fails_on_invalid_utf8 :
    Chain.Encode ⟨[0xFF], some []⟩ (fun _ => false)
      = some (ascii "\x7b\"Nick\":\"\\ufffd\",\"Chain\":\x7b\x7d\x7d") ∧
    Decode (ascii "\x7b\"Nick\":\"\\ufffd\",\"Chain\":\x7b\x7d\x7d")
      = Decoded.chain ⟨[0xEF, 0xBF, 0xBD], some []⟩ ∧
    ¬ (∃ enc c1, Chain.Encode ⟨[0xFF], some []⟩ (fun _ => false) = some enc ∧
        Decode enc = Decoded.chain c1 ∧ c1.Nick = [0xFF]) := by
  refine ⟨by decide, by decide, ?_⟩
  rintro ⟨enc, c1, henc, hdec, hnick⟩
  have e1 : Chain.Encode ⟨[0xFF], some []⟩ (fun _ => false)
      = some (ascii "\x7b\"Nick\":\"\\ufffd\",\"Chain\":\x7b\x7d\x7d") := by decide
  have e2 : Decode (ascii "\x7b\"Nick\":\"\\ufffd\",\"Chain\":\x7b\x7d\x7d")
      = Decoded.chain ⟨[0xEF, 0xBF, 0xBD], some []⟩ := by decide
  rw [e1] at henc
  cases henc
  rw [e2] at hdec
  cases hdec
  revert hnick
  decide

/-- C10 (amended): for every Chain whose identity, keys and successors are well-formed
UTF-8, and whichever of its empty successor lists are nil slices, `Encode` succeeds and
`Decode` of the result succeeds and returns a Chain with the same identity, a map that is
nil exactly when the original is, the same keys, and for every key the same successor
list (same order, duplicates kept). -/
theorem C10_roundtrip_valid_utf8 (c : Markov.Chain) (nilSlice : GoString → Bool)
    (hv : c.ValidUTF8) :
    ∃ enc c1, c.Encode nilSlice = some enc ∧ Decode enc = Decoded.chain c1 ∧
      c1.Nick = c.Nick ∧ (c1.Chain = none ↔ c.Chain = none) ∧
      (∀ k, c1.hasKey k ↔ c.hasKey k) ∧ (∀ k, c1.read k = c.read k) :=
  roundtrip_valid c nilSlice hv

theorem chainCat_valid : chainCat.ValidUTF8 := by
  refine ⟨by decide, ?_⟩
  intro t ht
  simp only [chainCat, Option.some.injEq] at ht
  subst ht
  decide

theorem C10_roundtrip_valid_utf8_witness :
    chainCat.ValidUTF8 ∧
    (∃ enc c1, chainCat.Encode (fun _ => false) = some enc ∧ Decode enc = Decoded.chain c1 ∧
      c1.Nick = chainCat.Nick ∧ (c1.Chain = none ↔ chainCat.Chain = none) ∧
      (∀ k, c1.hasKey k ↔ chainCat.hasKey k) ∧ (∀ k, c1.read k = chainCat.read k)) ∧
    chainCat.Encode (fun _ => false)
      = some (ascii "\x7b\"Nick\":\"all\",\"Chain\":\x7b\"cat sat\":[\"the\"],\"the cat\":[\"sat\",\"ran\"]\x7d\x7d") ∧
    Decode (ascii "\x7b\"Nick\":\"all\",\"Chain\":\x7b\"cat sat\":[\"the\"],\"the cat\":[\"sat\",\"ran\"]\x7d\x7d")
      = Decoded.chain ⟨ascii "all", some [(ascii "cat sat", [ascii "the"]),
          (ascii "the cat", [ascii "sat", ascii "ran"])]⟩ :=
  ⟨chainCat_valid, C10_roundtrip_valid_utf8 chainCat (fun _ => false) chainCat_valid,
   by decide, by decide⟩


/-! ## Ingestion as a whole: what one call adds to a table -/

theorem scanLoop_eq_observeAll (fuel : Nat) :
    ∀ (m : Option Table) (p : Prefix) (rs : List Nat),
      scanLoop fuel m p rs = observeAll m p (scanTokens fuel rs) := by
  induction fuel with
  | zero => intro m p rs; rfl
  | succ fuel ih =>
    intro m p rs
    rw [scanLoop, scanTokens]
    cases hF : Fscan rs with
    | none => rfl
    | some v =>
      obtain ⟨s, rs1⟩ := v
      simp only [observeAll]
      cases hO : observe m p s with
      | none => rfl
      | some w =>
        obtain ⟨m1, q⟩ := w
        exact ih m1 q rs1

theorem observeAll_start (t : Table) (vs : List GoString) :
    ∃ t1 q, observeAll (some t) (makePrefix PrefixLen) vs = some (some t1, q) ∧
      (∀ k, t1.get k = t.get k ++ observed vs k) ∧
      (∀ k, k ∈ t1.keys ↔ k ∈ t.keys ∨
        ∃ i, i < vs.length ∧ Prefix.String (windowAt vs i) = k) := by
  obtain ⟨t1, q, hrun, hget, hkeys⟩ := observeAll_spec vs t []
  simp only [List.nil_append, List.length_nil, windowAt_zero, Nat.zero_add] at hrun hget hkeys
  exact ⟨t1, q, hrun, fun k => by rw [hget k]; rfl, hkeys⟩

theorem buildFromString_table (c : Markov.Chain) (t : Table) (s : GoString)
    (hc : c.Chain = some t) :
    ∃ t1, c.BuildFromString s = some ⟨c.Nick, some t1⟩ ∧
      (∀ k, t1.get k = t.get k ++ observed (Split s SP) k) ∧
      (∀ k, k ∈ t1.keys ↔ k ∈ t.keys ∨
        ∃ i, i < (Split s SP).length ∧ Prefix.String (windowAt (Split s SP) i) = k) := by
  obtain ⟨t1, q, hrun, hget, hkeys⟩ := observeAll_start t (Split s SP)
  exact ⟨t1, by simp [Chain.BuildFromString, hc, hrun], hget, hkeys⟩

theorem build_table (c : Markov.Chain) (t : Table) (r : GoString) (hc : c.Chain = some t) :
    ∃ t1 vs, c.Build r = some ⟨c.Nick, some t1⟩ ∧
      (∀ k, t1.get k = t.get k ++ observed vs k) ∧
      (∀ k, k ∈ t1.keys ↔ k ∈ t.keys ∨
        ∃ i, i < vs.length ∧ Prefix.String (windowAt vs i) = k) := by
  obtain ⟨t1, q, hrun, hget, hkeys⟩ :=
    observeAll_start t (scanTokens ((runes r).length + 1) (runes r))
  exact ⟨t1, _, by simp [Chain.Build, hc, scanLoop_eq_observeAll, hrun], hget, hkeys⟩

theorem mem_observed (vs : List GoString) (i : Nat) (hi : i < vs.length) :
    vs.get ⟨i, hi⟩ ∈ observed vs (Prefix.String (windowAt vs i)) := by
  unfold observed
  rw [List.mem_filterMap]
  exact ⟨i, List.mem_range.mpr hi, by simp [List.get?_eq_get hi]⟩

theorem hasKey_nonnil (c : Markov.Chain) (k : GoString) (h : c.hasKey k) :
    ∃ t, c.Chain = some t ∧ k ∈ t.keys := by
  unfold Chain.hasKey at h
  cases hc : c.Chain with
  | none => rw [hc] at h; exact absurd h id
  | some t => rw [hc] at h; exact ⟨t, rfl, h⟩

/-- C11: ingestion is append-only. For every Chain, every input and every key present in
the table before the call, `BuildFromString` and `Build` both return, the key is still
present afterwards, and its previous successor list is an initial segment of its new
one. -/
theorem C11_ingestion_append_only (c : Markov.Chain) (s : GoString) (k : GoString)
    (hk : c.hasKey k) :
    (∃ c1, c.BuildFromString s = some c1 ∧ c1.hasKey k ∧ c.read k <+: c1.read k) ∧
    (∃ c2, c.Build s = some c2 ∧ c2.hasKey k ∧ c.read k <+: c2.read k) := by
  obtain ⟨t, hc, hkt⟩ := hasKey_nonnil c k hk
  constructor
  · obtain ⟨t1, hrun, hget, hkeys⟩ := buildFromString_table c t s hc
    refine ⟨_, hrun, ?_, ?_⟩
    · simp only [Chain.hasKey]
      exact (hkeys k).mpr (Or.inl hkt)
    · simp only [Chain.read, hc, hget]
      exact List.prefix_append _ _
  · obtain ⟨t1, vs, hrun, hget, hkeys⟩ := build_table c t s hc
    refine ⟨_, hrun, ?_, ?_⟩
    · simp only [Chain.hasKey]
      exact (hkeys k).mpr (Or.inl hkt)
    · simp only [Chain.read, hc, hget]
      exact List.prefix_append _ _

theorem chainCat_hasKey : chainCat.hasKey (ascii "the cat") := by
  show ascii "the cat" ∈ Table.keys [(ascii "the cat", [ascii "sat", ascii "ran"]),
    (ascii "cat sat", [ascii "the"])]
  decide

theorem C11_ingestion_append_only_witness :
    chainCat.hasKey (ascii "the cat") ∧
    (∃ c1, chainCat.BuildFromString (ascii "the cat ate") = some c1 ∧
      c1.hasKey (ascii "the cat") ∧ chainCat.read (ascii "the cat") <+: c1.read (ascii "the cat")) ∧
    (∃ c2, chainCat.Build (ascii "the cat ate") = some c2 ∧
      c2.hasKey (ascii "the cat") ∧ chainCat.read (ascii "the cat") <+: c2.read (ascii "the cat")) ∧
    (chainCat.BuildFromString (ascii "the cat ate")).map (fun c => c.read (ascii "the cat"))
      = some [ascii "sat", ascii "ran", ascii "ate"] :=
  ⟨chainCat_hasKey,
    (C11_ingestion_append_only chainCat (ascii "the cat ate") (ascii "the cat")
      chainCat_hasKey).1,
    (C11_ingestion_append_only chainCat (ascii "the cat ate") (ascii "the cat")
      chainCat_hasKey).2, by decide⟩

theorem observeAll_nil_map (vs : List GoString) :
    ∀ (p : Prefix) (m : Option Table) (q : Prefix),
      observeAll none p vs = some (m, q) → m = none ∧ vs = [] := by
  intro p m q h
  cases vs with
  | nil => simp only [observeAll, Option.some.injEq, Prod.mk.injEq] at h; exact ⟨h.1.symm, rfl⟩
  | cons v vs => simp [observeAll, observe] at h

theorem nonEmpty_after (t t1 : Table) (vs : List GoString)
    (h : ∀ k, k ∈ t.keys → t.get k ≠ [])
    (hget : ∀ k, t1.get k = t.get k ++ observed vs k)
    (hkeys : ∀ k, k ∈ t1.keys ↔ k ∈ t.keys ∨
      ∃ i, i < vs.length ∧ Prefix.String (windowAt vs i) = k) :
    ∀ k, k ∈ t1.keys → t1.get k ≠ [] := by
  intro k hk
  rw [hget k]
  rcases (hkeys k).mp hk with h1 | ⟨i, hi, rfl⟩
  · intro e
    exact h k h1 (List.append_eq_nil.mp e).1
  · intro e
    have hm := mem_observed vs i hi
    rw [(List.append_eq_nil.mp e).2] at hm
    exact absurd hm (List.not_mem_nil _)

theorem nonEmpty_buildFromString (c : Markov.Chain) (s : GoString) (c1 : Markov.Chain)
    (h : NonEmptyLists c) (hrun : c.BuildFromString s = some c1) : NonEmptyLists c1 := by
  cases hc : c.Chain with
  | none =>
    exfalso
    unfold Chain.BuildFromString at hrun
    rw [hc] at hrun
    cases ho : observeAll none (makePrefix PrefixLen) (Split s SP) with
    | none => rw [ho] at hrun; cases hrun
    | some v =>
      obtain ⟨m, q⟩ := v
      exact split_ne_nil s SP (observeAll_nil_map _ _ _ _ ho).2
  | some t =>
    obtain ⟨t1, hrun1, hget, hkeys⟩ := buildFromString_table c t s hc
    rw [hrun1] at hrun
    cases hrun
    intro k hk
    have := nonEmpty_after t t1 _ (fun k hk => by
      have := h k (by simpa [Chain.hasKey, hc] using hk)
      simpa [Chain.read, hc] using this) hget hkeys k hk
    simpa [Chain.read] using this

theorem nonEmpty_build (c : Markov.Chain) (r : GoString) (c1 : Markov.Chain)
    (h : NonEmptyLists c) (hrun : c.Build r = some c1) : NonEmptyLists c1 := by
  cases hc : c.Chain with
  | none =>
    unfold Chain.Build at hrun
    rw [hc, scanLoop_eq_observeAll] at hrun
    cases ho : observeAll none (makePrefix PrefixLen)
        (scanTokens ((runes r).length + 1) (runes r)) with
    | none => rw [ho] at hrun; cases hrun
    | some v =>
      obtain ⟨m, q⟩ := v
      rw [ho] at hrun
      cases hrun
      rw [(observeAll_nil_map _ _ _ _ ho).1]
      intro k hk
      exact absurd hk id
  | some t =>
    obtain ⟨t1, vs, hrun1, hget, hkeys⟩ := build_table c t r hc
    rw [hrun1] at hrun
    cases hrun
    intro k hk
    have := nonEmpty_after t t1 _ (fun k hk => by
      have := h k (by simpa [Chain.hasKey, hc] using hk)
      simpa [Chain.read, hc] using this) hget hkeys k hk
    simpa [Chain.read] using this

theorem ingest_returns (ops : List Source) :
    ∀ (c : Markov.Chain) (t : Table), c.Chain = some t →
      ∃ c1 t1, ingest c ops = some c1 ∧ c1.Chain = some t1 ∧ c1.Nick = c.Nick := by
  induction ops with
  | nil => intro c t hc; exact ⟨c, t, rfl, hc, rfl⟩
  | cons op ops ih =>
    intro c t hc
    cases op with
    | reader r =>
      obtain ⟨t1, vs, hrun, _, _⟩ := build_table c t r hc
      obtain ⟨c2, t2, h1, h2, h3⟩ := ih ⟨c.Nick, some t1⟩ t1 rfl
      exact ⟨c2, t2, by simp [ingest, ingestOne, hrun, h1], h2, h3⟩
    | text s =>
      obtain ⟨t1, hrun, _, _⟩ := buildFromString_table c t s hc
      obtain ⟨c2, t2, h1, h2, h3⟩ := ih ⟨c.Nick, some t1⟩ t1 rfl
      exact ⟨c2, t2, by simp [ingest, ingestOne, hrun, h1], h2, h3⟩

theorem ingest_nonEmpty (ops : List Source) :
    ∀ (c c1 : Markov.Chain), NonEmptyLists c → ingest c ops = some c1 → NonEmptyLists c1 := by
  induction ops with
  | nil =>
    intro c c1 h hrun
    simp only [ingest, Option.some.injEq] at hrun
    rw [← hrun]; exact h
  | cons op ops ih =>
    intro c c1 h hrun
    simp only [ingest] at hrun
    cases ho : ingestOne c op with
    | none => rw [ho] at hrun; cases hrun
    | some c2 =>
      rw [ho] at hrun
      refine ih c2 c1 ?_ hrun
      cases op with
      | reader r => exact nonEmpty_build c r c2 h ho
      | text s => exact nonEmpty_buildFromString c s c2 h ho

/-- C13: if no key of a Chain maps to an empty successor list, then after
`BuildFromString` or `Build` on any input no key does; and every sequence of ingestion
calls on a Chain made by `NewChain` returns a Chain in which every key present has a
non-empty successor list. -/
theorem C13_successor_lists_never_empty :
    (∀ (c : Markov.Chain) (s : GoString) (c1 : Markov.Chain),
      NonEmptyLists c → c.BuildFromString s = some c1 → NonEmptyLists c1) ∧
    (∀ (c : Markov.Chain) (r : GoString) (c1 : Markov.Chain),
      NonEmptyLists c → c.Build r = some c1 → NonEmptyLists c1) ∧
    (∀ (nick : GoString) (ops : List Source),
      ∃ c1, ingest (NewChain nick) ops = some c1 ∧ NonEmptyLists c1) := by
  refine ⟨nonEmpty_buildFromString, nonEmpty_build, ?_⟩
  intro nick ops
  obtain ⟨c1, _, hrun, _, _⟩ := ingest_returns ops (NewChain nick) [] rfl
  refine ⟨c1, hrun, ingest_nonEmpty ops (NewChain nick) c1 ?_ hrun⟩
  intro k hk
  simp [Chain.hasKey, NewChain, Table.keys] at hk

theorem C13_successor_lists_never_empty_witness :
    ∃ c1, ingest (NewChain (ascii "all"))
        [Source.text (ascii "a  b"), Source.reader (ascii "c d\n e")] = some c1 ∧
      NonEmptyLists c1 :=
  C13_successor_lists_never_empty.2.2 (ascii "all")
    [Source.text (ascii "a  b"), Source.reader (ascii "c d\n e")]

/-- C19: two successive `BuildFromString` calls add to every key the list that the first
string alone gives on an empty Chain, then the list that the second string alone gives:
for every Chain, once both calls have returned, the successor list of every key is the
original list followed by those two lists (so nothing is recorded across the boundary);
and on every Chain whose map is not nil both calls return. -/
theorem C19_successive_ingestions_concatenate (c : Markov.Chain) (s1 s2 : GoString)
    (n1 n2 : GoString) :
    ∃ e1 e2, (NewChain n1).BuildFromString s1 = some e1 ∧
      (NewChain n2).BuildFromString s2 = some e2 ∧
      (∀ c1 c2, c.BuildFromString s1 = some c1 → c1.BuildFromString s2 = some c2 →
        ∀ k, c2.read k = c.read k ++ e1.read k ++ e2.read k) ∧
      (c.Chain ≠ none →
        ∃ c1 c2, c.BuildFromString s1 = some c1 ∧ c1.BuildFromString s2 = some c2) := by
  obtain ⟨u1, hu1, hg1, _⟩ := buildFromString_table (NewChain n1) [] s1 rfl
  obtain ⟨u2, hu2, hg2, _⟩ := buildFromString_table (NewChain n2) [] s2 rfl
  have key : ∀ t, c.Chain = some t →
      ∃ c1 c2, c.BuildFromString s1 = some c1 ∧ c1.BuildFromString s2 = some c2 ∧
        ∀ k, c2.read k = c.read k ++ (u1.get k) ++ (u2.get k) := by
    intro t hc
    obtain ⟨t1, hr1, hget1, _⟩ := buildFromString_table c t s1 hc
    obtain ⟨t2, hr2, hget2, _⟩ := buildFromString_table ⟨c.Nick, some t1⟩ t1 s2 rfl
    refine ⟨_, _, hr1, hr2, fun k => ?_⟩
    simp only [Chain.read, hc, hget2, hget1, hg1, hg2, Table.get, List.nil_append]
  refine ⟨_, _, hu1, hu2, ?_, ?_⟩
  · intro c1 c2 h1 h2 k
    cases hc : c.Chain with
    | none =>
      exfalso
      unfold Chain.BuildFromString at h1
      rw [hc] at h1
      cases ho : observeAll none (makePrefix PrefixLen) (Split s1 SP) with
      | none => rw [ho] at h1; cases h1
      | some v =>
        obtain ⟨m, q⟩ := v
        exact split_ne_nil s1 SP (observeAll_nil_map _ _ _ _ ho).2
    | some t =>
      obtain ⟨d1, d2, hd1, hd2, hk⟩ := key t hc
      rw [hd1] at h1
      cases h1
      rw [hd2] at h2
      cases h2
      simpa [Chain.read] using hk k
  · intro hne
    cases hc : c.Chain with
    | none => exact absurd hc hne
    | some t =>
      obtain ⟨d1, d2, hd1, hd2, _⟩ := key t hc
      exact ⟨d1, d2, hd1, hd2⟩

theorem C19_successive_ingestions_concatenate_witness :
    (∃ e1 e2, (NewChain (ascii "x")).BuildFromString (ascii "the cat ate") = some e1 ∧
      (NewChain (ascii "y")).BuildFromString (ascii "the cat") = some e2 ∧
      (∀ c1 c2, chainCat.BuildFromString (ascii "the cat ate") = some c1 →
        c1.BuildFromString (ascii "the cat") = some c2 →
        ∀ k, c2.read k = chainCat.read k ++ e1.read k ++ e2.read k) ∧
      (chainCat.Chain ≠ none →
        ∃ c1 c2, chainCat.BuildFromString (ascii "the cat ate") = some c1 ∧
          c1.BuildFromString (ascii "the cat") = some c2)) ∧
    ((chainCat.BuildFromString (ascii "the cat ate")).bind
        (fun c1 => c1.BuildFromString (ascii "the cat"))).map
      (fun c2 => (c2.read (ascii "the cat"), c2.read (ascii " "), c2.read (ascii "cat ate")))
      = some ([ascii "sat", ascii "ran", ascii "ate"], [ascii "the", ascii "the"], []) :=
  ⟨C19_successive_ingestions_concatenate chainCat (ascii "the cat ate") (ascii "the cat")
      (ascii "x") (ascii "y"), by decide⟩

theorem split_pieces_no_sep (s : GoString) (sep : Nat) : ∀ t ∈ Split s sep, sep ∉ t := by
  induction s with
  | nil => intro t ht; simp [Split] at ht; simp [ht]
  | cons b rest ih =>
    intro t ht
    unfold Split at ht
    split at ht
    · rcases List.mem_cons.mp ht with e | e
      · simp [e]
      · exact ih t e
    · rename_i hb
      split at ht
      · simp only [List.mem_singleton] at ht
        rw [ht]
        simp only [List.mem_singleton]
        exact fun e => hb e.symm
      · rename_i t0 ts heq
        rcases List.mem_cons.mp ht with e | e
        · rw [e]
          intro hmem
          rcases List.mem_cons.mp hmem with e1 | e1
          · exact hb e1.symm
          · exact ih t0 (by rw [heq]; simp) e1
        · exact ih t (by rw [heq]; simp [e])

theorem tokAt_no_sep (vs : List GoString) (h : ∀ t ∈ vs, SP ∉ t) (j : Int) :
    SP ∉ tokAt vs j := by
  unfold tokAt
  split
  · simp
  · rw [List.getD_eq_getElem?_getD]
    cases hg : vs[j.toNat]? with
    | none => simp
    | some v => exact h v (List.getElem?_mem hg)

theorem key_count (x y : GoString) (hx : SP ∉ x) (hy : SP ∉ y) :
    (Prefix.String [x, y]).count SP = 1 := by
  simp only [Prefix.String, Join, List.count_append, List.count_eq_zero.mpr hx,
    List.count_eq_zero.mpr hy]
  simp

theorem keyWF_window (vs : List GoString) (h : ∀ t ∈ vs, SP ∉ t) (i : Nat) :
    KeyWF (Prefix.String (windowAt vs i)) := by
  unfold windowAt
  exact ⟨key_count _ _ (tokAt_no_sep vs h _) (tokAt_no_sep vs h _),
    _, _, rfl, tokAt_no_sep vs h _, tokAt_no_sep vs h _⟩

theorem keyWF_texts (ss : List GoString) :
    ∀ (c : Markov.Chain) (t : Table), c.Chain = some t → (∀ k, k ∈ t.keys → KeyWF k) →
      ∃ c1, ingest c (ss.map Source.text) = some c1 ∧ ∀ k, c1.hasKey k → KeyWF k := by
  induction ss with
  | nil =>
    intro c t hc h
    exact ⟨c, rfl, fun k hk => h k (by simpa [Chain.hasKey, hc] using hk)⟩
  | cons s ss ih =>
    intro c t hc h
    obtain ⟨t1, hrun, _, hkeys⟩ := buildFromString_table c t s hc
    obtain ⟨c1, h1, h2⟩ := ih ⟨c.Nick, some t1⟩ t1 rfl (by
      intro k hk
      rcases (hkeys k).mp hk with h0 | ⟨i, _, rfl⟩
      · exact h k h0
      · exact keyWF_window _ (split_pieces_no_sep s SP) i)
    exact ⟨c1, by simp [ingest, ingestOne, hrun, h1], h2⟩

/-- C12: after any sequence of input strings has been ingested by `BuildFromString` into a
Chain that starts empty, every key of the table holds exactly one space and is the
single-space join of two (possibly empty) tokens that hold no space: the serialisation of
a Prefix of length 2. -/
theorem C12_keys_are_serialised_prefixes (nick : GoString) (ss : List GoString) :
    ∃ c1, ingest (NewChain nick) (ss.map Source.text) = some c1 ∧
      ∀ k, c1.hasKey k →
        k.count SP = 1 ∧ ∃ x y : GoString, k = Prefix.String [x, y] ∧ SP ∉ x ∧ SP ∉ y := by
  obtain ⟨c1, h1, h2⟩ := keyWF_texts ss (NewChain nick) [] rfl (by
    intro k hk; simp [Table.keys] at hk)
  exact ⟨c1, h1, h2⟩

theorem C12_keys_are_serialised_prefixes_witness :
    (∃ c1, ingest (NewChain (ascii "all"))
        ([ascii "a  b", ascii "", ascii "c\td e"].map Source.text) = some c1 ∧
      ∀ k, c1.hasKey k →
        k.count SP = 1 ∧ ∃ x y : GoString, k = Prefix.String [x, y] ∧ SP ∉ x ∧ SP ∉ y) ∧
    ingest (NewChain (ascii "all")) ([ascii "a  b", ascii ""].map Source.text)
      = some ⟨ascii "all", some [(ascii " ", [ascii "a", ascii ""]), (ascii " a", [ascii ""]),
          (ascii "a ", [ascii "b"])]⟩ :=
  ⟨C12_keys_are_serialised_prefixes (ascii "all") [ascii "a  b", ascii "", ascii "c\td e"],
    by decide⟩

/-! ## Generated trigrams occur in the corpus -/

theorem append_sep_inj (sep : Nat) (x : GoString) :
    ∀ (x1 y y1 : GoString), sep ∉ x → sep ∉ x1 → x ++ sep :: y = x1 ++ sep :: y1 →
      x = x1 ∧ y = y1 := by
  induction x with
  | nil =>
    intro x1 y y1 _ hx1 h
    cases x1 with
    | nil => simpa using h
    | cons a x1 =>
      simp only [List.nil_append, List.cons_append, List.cons.injEq] at h
      exact absurd (by simp [h.1]) hx1
  | cons a x ih =>
    intro x1 y y1 hx hx1 h
    cases x1 with
    | nil =>
      simp only [List.nil_append, List.cons_append, List.cons.injEq] at h
      exact absurd (by simp [h.1]) hx
    | cons b x1 =>
      simp only [List.cons_append, List.cons.injEq] at h
      obtain ⟨e1, e2⟩ := ih x1 y y1 (fun m => hx (by simp [m])) (fun m => hx1 (by simp [m])) h.2
      exact ⟨by rw [h.1, e1], e2⟩

theorem key_inj (x y x1 y1 : GoString) (hx : SP ∉ x) (hx1 : SP ∉ x1)
    (h : Prefix.String [x, y] = Prefix.String [x1, y1]) : x = x1 ∧ y = y1 := by
  simp only [Prefix.String, Join, List.append_assoc, List.singleton_append] at h
  exact append_sep_inj SP x x1 y y1 hx hx1 h

theorem genLoop_outcome (c : Markov.Chain) (rnd : Nat → Nat) :
    ∀ (fuel : Nat) (s : GenState), GenInv c rnd s →
      ∃ w, (genLoop c rnd fuel s).words = some w ∧
        ∀ i, i < w.length →
          ∃ j, (c.read (Prefix.String (windowAt w i))).get? j = w.get? i := by
  intro fuel
  induction fuel with
  | zero =>
    intro s hinv
    exact ⟨s.words, rfl, fun i hi => by
      obtain ⟨j, _, _, hj⟩ := hinv.2.2 i hi
      exact ⟨j, hj⟩⟩
  | succ fuel ih =>
    intro s hinv
    have hp0 : s.p ≠ [] := by rw [hinv.1]; exact windowAt_ne_nil _ _
    rcases genStep_cases c rnd s hp0 with ⟨_, hh⟩ | ⟨j, nx, q, _, _, _, _, _, hn⟩
    · refine ⟨s.words, by simp [genLoop, hh, Outcome.words], fun i hi => ?_⟩
      obtain ⟨j, _, _, hj⟩ := hinv.2.2 i hi
      exact ⟨j, hj⟩
    · obtain ⟨w, hw, hall⟩ := ih _ (genInv_next c rnd s _ hinv hn).1
      exact ⟨w, by simp only [genLoop, hn]; exact hw, hall⟩

theorem tokAt_get (w : List GoString) (i : Nat) (x : GoString) (h : w.get? i = some x) :
    tokAt w (i : Int) = x := by
  rw [tokAt_nat, List.getD_eq_getElem?_getD, ← List.get?_eq_getElem?, h]
  rfl

/-- C18 (as stated, fails): the empty list of tokens is a list of non-empty, space-free
tokens; joined it is the empty string, on which `BuildFromString` records the empty string
as successor of the all-empty Prefix, and `Generate` then emits the empty string, which is
at no position of the (empty) corpus. -/
theorem C18_fails_on_empty_corpus :
    (∀ t ∈ ([] : List GoString), t ≠ [] ∧ SP ∉ t) ∧
    (NewChain (ascii "all")).BuildFromString (Join [] [SP])
      = some ⟨ascii "all", some [(ascii " ", [ascii ""])]⟩ ∧
    (Chain.Generate ⟨ascii "all", some [(ascii " ", [ascii ""])]⟩ (fun _ => 0) 1).words
      = some [ascii ""] ∧
    ¬ (∀ i, i < [ascii ""].length → ∃ j, j < ([] : List GoString).length ∧
        tokAt [ascii ""] (i : Int) = tokAt [] (j : Int) ∧
        tokAt [ascii ""] ((i : Int) - 1) = tokAt [] ((j : Int) - 1) ∧
        tokAt [ascii ""] ((i : Int) - 2) = tokAt [] ((j : Int) - 2)) := by
  refine ⟨by simp, by decide, by decide, ?_⟩
  intro h
  obtain ⟨j, hj, _⟩ := h 0 (by decide)
  exact absurd hj (Nat.not_lt_zero j)

/-- C18 (amended): every generated trigram occurs in the corpus. For the Chain built from
an empty Chain by `BuildFromString` on a non-empty list of non-empty, space-free tokens
`t_0..t_{n-1}` joined by single spaces, `Generate` never panics, and for every sequence of
random draws, every number of loop iterations and every position `i` of the words `w`
emitted so far, there is a corpus position `j` with `w_i = t_j`, `w_{i-1} = t_{j-1}` and
`w_{i-2} = t_{j-2}`, positions before the start counting as the empty string; the first
generated word is `t_0`. -/
theorem C18_generated_trigrams_occur (nick : GoString) (ts : List GoString) (hne : ts ≠ [])
    (hts : ∀ t ∈ ts, t ≠ [] ∧ SP ∉ t) (rnd : Nat → Nat) (fuel : Nat) :
    ∃ c, (NewChain nick).BuildFromString (Join ts [SP]) = some c ∧
      ∃ w, (c.Generate rnd fuel).words = some w ∧
        (∀ i, i < w.length → ∃ j, j < ts.length ∧
          tokAt w (i : Int) = tokAt ts (j : Int) ∧
          tokAt w ((i : Int) - 1) = tokAt ts ((j : Int) - 1) ∧
          tokAt w ((i : Int) - 2) = tokAt ts ((j : Int) - 2)) ∧
        (∀ x, w.head? = some x → ts.head? = some x) := by
  obtain ⟨t1, hbuild, hget, _⟩ := build_spec nick ts hne (fun t ht => (hts t ht).2)
  refine ⟨_, hbuild, ?_⟩
  obtain ⟨w, hw, hall⟩ := genLoop_outcome ⟨nick, some t1⟩ rnd fuel genInit
    (genInv_init _ rnd)
  refine ⟨w, hw, ?_⟩
  have hsp : ∀ t ∈ ts, SP ∉ t := fun t ht => (hts t ht).2
  -- every emitted word is taken from the corpus, after a window with the same key
  have hF : ∀ i x, w.get? i = some x → ∃ j, j < ts.length ∧
      Prefix.String (windowAt ts j) = Prefix.String (windowAt w i) ∧ ts.get? j = some x := by
    intro i x hx
    have hi : i < w.length := by
      rw [List.get?_eq_getElem?] at hx
      exact (List.getElem?_eq_some_iff.mp hx).1
    obtain ⟨j0, hj0⟩ := hall i hi
    rw [hx] at hj0
    have hmem := List.get?_mem hj0
    simp only [Chain.read, hget, observed, List.mem_filterMap, List.mem_range] at hmem
    obtain ⟨j, hj, hif⟩ := hmem
    by_cases hk : Prefix.String (windowAt ts j) = Prefix.String (windowAt w i)
    · rw [if_pos hk] at hif
      exact ⟨j, hj, hk, hif⟩
    · rw [if_neg hk] at hif
      cases hif
  have hwsp : ∀ x ∈ w, SP ∉ x := by
    intro x hx
    obtain ⟨i, hi⟩ := List.get?_of_mem hx
    obtain ⟨j, _, _, hj⟩ := hF i x hi
    exact hsp x (List.get?_mem hj)
  have hwin : ∀ i x, w.get? i = some x → ∃ j, j < ts.length ∧ ts.get? j = some x ∧
      tokAt ts ((j : Int) - 2) = tokAt w ((i : Int) - 2) ∧
      tokAt ts ((j : Int) - 1) = tokAt w ((i : Int) - 1) := by
    intro i x hx
    obtain ⟨j, hj, hk, hjx⟩ := hF i x hx
    have := key_inj _ _ _ _ (tokAt_no_sep ts hsp _) (tokAt_no_sep w hwsp _) hk
    exact ⟨j, hj, hjx, this.1, this.2⟩
  constructor
  · intro i hi
    obtain ⟨j, hj, hjx, h2, h1⟩ := hwin i (w.get ⟨i, hi⟩) (List.get?_eq_get hi)
    exact ⟨j, hj, by rw [tokAt_get w i _ (List.get?_eq_get hi), tokAt_get ts j _ hjx],
      h1.symm, h2.symm⟩
  · intro x hx
    have hx0 : w.get? 0 = some x := by
      cases w with
      | nil => simp at hx
      | cons a w => simpa using hx
    obtain ⟨j, hj, hjx, _, h1⟩ := hwin 0 x hx0
    cases j with
    | zero =>
      cases ts with
      | nil => exact absurd rfl hne
      | cons a ts => simpa using hjx
    | succ j =>
      exfalso
      have e1 : (((j + 1 : Nat) : Int) - 1) = ((j : Nat) : Int) := by omega
      have e0 : tokAt w (((0 : Nat) : Int) - 1) = [] := by simp [tokAt]
      rw [e1, e0] at h1
      have hjlt : j < ts.length := by omega
      rw [tokAt_get ts j _ (List.get?_eq_get hjlt)] at h1
      exact (hts _ (List.get_mem ts j hjlt)).1 h1

theorem C18_generated_trigrams_occur_witness :
    ([ascii "a", ascii "b", ascii "c"] ≠ []) ∧
    (∀ t ∈ [ascii "a", ascii "b", ascii "c"], t ≠ [] ∧ SP ∉ t) ∧
    ∃ c, (NewChain (ascii "all")).BuildFromString (Join [ascii "a", ascii "b", ascii "c"] [SP])
        = some c ∧
      ∃ w, (c.Generate (fun i => i) 2).words = some w ∧
        (∀ i, i < w.length → ∃ j, j < [ascii "a", ascii "b", ascii "c"].length ∧
          tokAt w (i : Int) = tokAt [ascii "a", ascii "b", ascii "c"] (j : Int) ∧
          tokAt w ((i : Int) - 1) = tokAt [ascii "a", ascii "b", ascii "c"] ((j : Int) - 1) ∧
          tokAt w ((i : Int) - 2) = tokAt [ascii "a", ascii "b", ascii "c"] ((j : Int) - 2)) ∧
        (∀ x, w.head? = some x → [ascii "a", ascii "b", ascii "c"].head? = some x) :=
  ⟨by decide, by decide,
    C18_generated_trigrams_occur (ascii "all") [ascii "a", ascii "b", ascii "c"] (by decide)
      (by decide) (fun i => i) 2⟩


/-! ## The text ingested for a log line -/

theorem splitWhite_append_sep (t rest : GoString) (h : ∀ b ∈ t, isWhite b = false) :
    splitWhite (t ++ SP :: rest) = t :: splitWhite rest := by
  induction t with
  | nil => simp [splitWhite, isWhite, SP]
  | cons b t ih =>
    have hb : isWhite b = false := h b (by simp)
    have ht : ∀ x ∈ t, isWhite x = false := fun x hx => h x (by simp [hx])
    simp [splitWhite, hb, ih ht]

theorem splitWhite_no_white (t : GoString) (h : ∀ b ∈ t, isWhite b = false) :
    splitWhite t = [t] := by
  induction t with
  | nil => simp [splitWhite]
  | cons b t ih =>
    have hb : isWhite b = false := h b (by simp)
    have ht : ∀ x ∈ t, isWhite x = false := fun x hx => h x (by simp [hx])
    simp [splitWhite, hb, ih ht]

theorem splitWhite_join (fs : List GoString) (hne : fs ≠ [])
    (h : ∀ f ∈ fs, ∀ b ∈ f, isWhite b = false) : splitWhite (Join fs [SP]) = fs := by
  induction fs with
  | nil => exact absurd rfl hne
  | cons a rest ih =>
    cases rest with
    | nil => simpa [Join] using splitWhite_no_white a (h a (by simp))
    | cons b rest =>
      have := ih (by simp) (fun f hf => h f (by simp [hf]))
      simp only [Join, List.append_assoc, List.singleton_append]
      rw [splitWhite_append_sep _ _ (h a (by simp)), this]

theorem fields_join (fs : List GoString) (hne : fs ≠ [])
    (h : ∀ f ∈ fs, f ≠ [] ∧ ∀ b ∈ f, isWhite b = false) : Fields (Join fs [SP]) = fs := by
  unfold Fields
  rw [splitWhite_join fs hne (fun f hf => (h f hf).2)]
  apply List.filter_eq_self.mpr
  intro f hf
  have := (h f hf).1
  cases f with
  | nil => exact absurd rfl this
  | cons _ _ => rfl

/-- C14 (as stated, fails): with two spaces after the first field, the text ingested for
the line `a  b c d e` is `d e` (the empty field between the two spaces is counted), not
the white-space-delimited fields after the first 4, which are `e`; with a tab between the
first two fields of `a<TAB>b c d e f` the text ingested is `f`, not `e f`. -/
theorem C14_lineText_counts_empty_fields :
    lineText (ascii "a  b c d e") = some (ascii "d e") ∧
    Join ((Fields (ascii "a  b c d e")).drop 4) [SP] = ascii "e" ∧
    lineText (ascii "a\tb c d e f") = some (ascii "f") ∧
    Join ((Fields (ascii "a\tb c d e f")).drop 4) [SP] = ascii "e f" ∧
    lineText (ascii "a  b c d e")
      ≠ some (Join ((Fields (ascii "a  b c d e")).drop 4) [SP]) := by
  refine ⟨by decide, by decide, by decide, by decide, by decide⟩

theorem join_cons_cons (b : Nat) (t : GoString) (ts : List GoString) (sep : GoString) :
    Join ((b :: t) :: ts) sep = b :: Join (t :: ts) sep := by
  cases ts with
  | nil => rfl
  | cons _ _ => rfl

theorem join_split (line : GoString) (sep : Nat) : Join (Split line sep) [sep] = line := by
  induction line with
  | nil => rfl
  | cons b rest ih =>
    unfold Split
    split
    · rename_i hb
      cases hs : Split rest sep with
      | nil => exact absurd hs (split_ne_nil rest sep)
      | cons t ts =>
        rw [hs] at ih
        simp only [Join, List.nil_append, List.singleton_append, ih, hb]
    · split
      · rename_i hs
        exact absurd hs (split_ne_nil rest sep)
      · rename_i t ts hs
        rw [hs] at ih
        rw [join_cons_cons, ih]

/-- C14 (amended): the fields of a log line are its pieces between single space
characters, whatever they hold besides spaces (an empty piece between two consecutive
spaces is a field, a tab separates nothing). For every line made of at least 4 such
fields joined by single spaces, the text ingested for the line is its fields after the
first 4, rejoined with single spaces. Every line is made of such fields in exactly one
way; and when every field is non-empty and holds no white space, they are the line's
white-space-delimited fields. -/
theorem C14_lineText_drops_four_fields (fs : List GoString) (hlen : 4 ≤ fs.length)
    (h : ∀ f ∈ fs, SP ∉ f) :
    lineText (Join fs [SP]) = some (Join (fs.drop 4) [SP]) ∧
    (∀ gs : List GoString, gs ≠ [] → (∀ g ∈ gs, SP ∉ g) → Join gs [SP] = Join fs [SP] →
      gs = fs) ∧
    (∀ line : GoString, ∃ gs : List GoString, gs ≠ [] ∧ (∀ g ∈ gs, SP ∉ g) ∧
      Join gs [SP] = line) ∧
    ((∀ f ∈ fs, f ≠ [] ∧ ∀ b ∈ f, isWhite b = false) → Fields (Join fs [SP]) = fs) := by
  have hne : fs ≠ [] := by
    intro e; rw [e] at hlen; simp at hlen
  refine ⟨?_, ?_, ?_, ?_⟩
  · unfold lineText sliceFrom
    rw [split_join fs SP hne h, if_pos hlen]
  · intro gs hgne hg e
    have h1 := split_join gs SP hgne hg
    rw [e, split_join fs SP hne h] at h1
    exact h1.symm
  · intro line
    exact ⟨Split line SP, split_ne_nil line SP, split_pieces_no_sep line SP,
      join_split line SP⟩
  · intro hw
    exact fields_join fs hne hw

theorem C14_lineText_drops_four_fields_witness :
    (4 ≤ [ascii "a", ascii "", ascii "b\tc", ascii "d", ascii "e", ascii "f"].length) ∧
    (∀ f ∈ [ascii "a", ascii "", ascii "b\tc", ascii "d", ascii "e", ascii "f"], SP ∉ f) ∧
    Join [ascii "a", ascii "", ascii "b\tc", ascii "d", ascii "e", ascii "f"] [SP]
      = ascii "a  b\tc d e f" ∧
    lineText (ascii "a  b\tc d e f") = some (ascii "e f") ∧
    lineText (ascii "12:00 <bob> #chan : hello world") = some (ascii "hello world") ∧
    lineText (Join [ascii "a", ascii "", ascii "b\tc", ascii "d", ascii "e", ascii "f"] [SP])
      = some (Join ([ascii "a", ascii "", ascii "b\tc", ascii "d", ascii "e",
          ascii "f"].drop 4) [SP]) :=
  ⟨by decide, by decide, by decide, by decide, by decide,
    (C14_lineText_drops_four_fields
      [ascii "a", ascii "", ascii "b\tc", ascii "d", ascii "e", ascii "f"]
      (by decide) (by decide)).1⟩

/-- C15 (fails on the code): a line with fewer than 4 single-space-delimited fields makes
the slice expression `txt[4:]` panic, so `BuildFromFile` does not return: on a file whose
only line is `a b c`, and on a file whose second line is empty. -/
theorem C15_buildFromFile_panics_on_short_line :
    lineText (ascii "a b c") = none ∧
    lineText (ascii "") = none ∧
    BuildFromFile (ascii "all") (some (ascii "a b c\n")) = none ∧
    BuildFromFile (ascii "all") (some (ascii "w x y z hello\n\nw x y z bye\n")) = none ∧
    (∀ line, (Split line SP).length < 4 → lineText line = none) := by
  refine ⟨by decide, by decide, by decide, by decide, ?_⟩
  intro line h
  unfold lineText sliceFrom
  rw [if_neg (by omega)]


/-! ## Save and GetChain -/

theorem bucket_setBucket_ne (db : DB) (n m : GoString) (b : Bucket) (h : n ≠ m) :
    (db.setBucket n b).Bucket m = db.Bucket m := by
  induction db with
  | nil => simp [DB.setBucket, DB.Bucket, h]
  | cons e rest ih =>
    obtain ⟨n0, b0⟩ := e
    by_cases h0 : n0 = n
    · subst h0
      simp [DB.setBucket, DB.Bucket, h]
    · by_cases h1 : n0 = m
      · subst h1
        simp [DB.setBucket, DB.Bucket, h0]
      · simp [DB.setBucket, DB.Bucket, h0, h1, ih]

theorem getChain_after_save (c : Markov.Chain) (nilSlice : GoString → Bool) (st : Store)
    (nick : GoString) : GetChain (c.Save nilSlice st).1 nick = GetChain st nick := by
  unfold Chain.Save
  split
  · rfl
  · split
    · rfl
    · split
      · rfl
      · simp only [GetChain]
        rw [bucket_setBucket_ne _ (ascii "markov") (ascii "people") _ (by decide)]

/-- C16 (fails on the code): `Save` writes the Chain into the bucket `markov`, `GetChain`
reads the bucket `people`. On a freshly opened store `Save` of the Chain `all` succeeds and
`GetChain("all")` then panics, for want of a bucket `people`; on a store that has an empty
bucket `people` it returns an error; and on every store `GetChain` gives after a `Save`
exactly what it gave before it. -/
theorem C16_getChain_misses_what_save_wrote :
    chainCat.Save (fun _ => false) ⟨true, []⟩
      = (⟨true, [(ascii "markov", [(ascii "all",
          ascii "\x7b\"Nick\":\"all\",\"Chain\":\x7b\"cat sat\":[\"the\"],\"the cat\":[\"sat\",\"ran\"]\x7d\x7d")])]⟩,
        true) ∧
    GetChain (chainCat.Save (fun _ => false) ⟨true, []⟩).1 (ascii "all") = Loaded.panicked ∧
    (chainCat.Save (fun _ => false) ⟨true, [(ascii "people", [])]⟩).2 = true ∧
    GetChain (chainCat.Save (fun _ => false) ⟨true, [(ascii "people", [])]⟩).1 (ascii "all")
      = Loaded.failed ∧
    (∀ (c : Markov.Chain) (nilSlice : GoString → Bool) (st : Store) (nick : GoString),
      GetChain (c.Save nilSlice st).1 nick = GetChain st nick) := by
  refine ⟨by decide, ?_, by decide, ?_, getChain_after_save⟩
  · rw [getChain_after_save]; decide
  · rw [getChain_after_save]; decide

/-- C17 (fails on the code): on an opened store that has no bucket `people` (a store in
which nothing was created yet, or one that `Save` alone has written), `GetChain` panics
for every identity instead of returning an error; it returns an error only when the
bucket exists and lacks the key. -/
theorem C17_getChain_panics_without_bucket :
    (∀ nick, GetChain ⟨true, []⟩ nick = Loaded.panicked) ∧
    (∀ (db : DB) (nick : GoString), db.Bucket (ascii "people") = none →
      GetChain ⟨true, db⟩ nick = Loaded.panicked) ∧
    (∀ (c : Markov.Chain) (nilSlice : GoString → Bool) (nick : GoString),
      GetChain (c.Save nilSlice ⟨true, []⟩).1 nick = Loaded.panicked) ∧
    (∀ (db : DB) (b : Bucket) (nick : GoString), db.Bucket (ascii "people") = some b →
      b.Get nick = none → GetChain ⟨true, db⟩ nick = Loaded.failed) := by
  refine ⟨fun nick => rfl, ?_, ?_, ?_⟩
  · intro db nick h
    simp [GetChain, h]
  · intro c nilSlice nick
    rw [getChain_after_save]
    rfl
  · intro db b nick h1 h2
    have hd : Decode [] = Decoded.failed := by decide
    simp [GetChain, h1, h2, hd]


end Markov
